import Mathlib

/-!
Cache simulator (`cachelab/csim.c`).

A shallow embedding of the cache model of `csim.c` and theorems about it.

Conventions of the embedding.

* `uint64_t` values are natural numbers reduced modulo `2 ^ 64` after every
  operation that can leave the range (`<<`); `unsigned int` values are reduced
  modulo `2 ^ 32` when they are stored.
* `int` values are integers.  Where the program computes an `int` that can
  leave the range, the embedding keeps what the compiled program keeps, the
  two's complement value of 32 bits (`wrap_int`): `LRU_age++` wraps from
  `2 ^ 31 - 1` to `-2 ^ 31`, and `1 << s` is `shl_one_int s`, which is `2 ^ s`
  up to `s = 30` only.  The three counters are plain integers; the claims
  about them bound the number of records by `2 ^ 31`.
* The heap objects reachable from a `cache *` are the value of type `cache`;
  the three global counters and the cache form the `state` of the program.
  `line_at` and `store_line` are the reads and writes of one `cache_line`
  through `c->sets[set_idx].lines[i]`.
-/

namespace Csim

/-- One line of a set: `valid` and `LRU_age` are `int`, `tag` is `unsigned int`. -/
structure cache_line where
  valid : Int
  tag : Nat
  LRU_age : Int
deriving DecidableEq, Repr, Inhabited

/-- One set: its own copy of `E` and the array of its lines. -/
structure cache_set where
  E : Int
  lines : List cache_line
deriving DecidableEq, Repr, Inhabited

/-- The cache: the array of sets, the two `uint64_t` masks and the geometry. -/
structure cache where
  sets : List cache_set
  tag_mask : Nat
  set_mask : Nat
  S : Int
  E : Int
  B : Int
  set_idx : Int
  block_offset : Int
deriving DecidableEq, Repr

/-- The program state: the global counters `hits`, `misses`, `evictions`
and the cache the simulator works on. -/
structure state where
  hits : Int
  misses : Int
  evictions : Int
  c : cache
deriving DecidableEq, Repr

/-- The value of `c->sets[set_idx].lines[i]`. -/
def line_at (c : cache) (set_idx i : Nat) : cache_line :=
  ((c.sets.getD set_idx default).lines).getD i default

/-- The assignment `c->sets[set_idx].lines[i] = l`. -/
def store_line (c : cache) (set_idx i : Nat) (l : cache_line) : cache :=
  { c with
    sets := c.sets.set set_idx
      { c.sets.getD set_idx default with
        lines := ((c.sets.getD set_idx default).lines).set i l } }

/-- The `int` the compiled program keeps for a signed result `z`: the two's
complement value of 32 bits. -/
def wrap_int (z : Int) : Int := (z + 2 ^ 31) % 2 ^ 32 - 2 ^ 31

/-- The `int` expression `1 << s`: the shift count is taken modulo 32, as the
shift instruction does, and the result is kept in 32 bits.  It is `2 ^ s` for
`0 ≤ s ≤ 30` and `-2 ^ 31` for `s = 31`. -/
def shl_one_int (s : Int) : Int := wrap_int (2 ^ (s % 32).toNat)

/-- The loop of `generate_mask`: `size` rounds of `res |= 0x1; res <<= 1;`
on a `uint64_t`. -/
def generate_mask_loop : Nat → Nat → Nat
  | 0, res => res
  | n + 1, res => generate_mask_loop n (((res ||| 1) <<< 1) % 2 ^ 64)

/-- The function `generate_mask(size, bias)`. -/
def generate_mask (size bias : Int) : Nat :=
  (((generate_mask_loop size.toNat 0) >>> 1) <<< bias.toNat) % 2 ^ 64

/-- The function `init_cache(s, E, b)`: `S = 1 << s` sets of `E` lines, every
line `valid = 0`, `tag = 0`, `LRU_age = 0`; the loop over the sets runs
`i = 0, ..., S - 1`, so there is no set when `S ≤ 0`. -/
def init_cache (s E b : Int) : cache :=
  { sets := List.replicate (shl_one_int s).toNat
      { E := E, lines := List.replicate E.toNat { valid := 0, tag := 0, LRU_age := 0 } }
    tag_mask := generate_mask (64 - s - b) (s + b)
    set_mask := generate_mask s b
    B := b
    S := shl_one_int s
    E := E
    set_idx := s
    block_offset := b }

/-- The loop of `update_LRU`: `curr_line->LRU_age++` for the lines
`i, i + 1, ..., i + n - 1`. -/
def update_LRU_loop (set_idx : Nat) : Nat → Nat → cache → cache
  | 0, _, c => c
  | n + 1, i, c =>
    update_LRU_loop set_idx n (i + 1)
      (store_line c set_idx i
        { line_at c set_idx i with
          LRU_age := wrap_int ((line_at c set_idx i).LRU_age + 1) })

/-- The function `update_LRU(c, set_idx, line_idx)`. -/
def update_LRU (c : cache) (set_idx line_idx : Nat) : cache :=
  let c1 := update_LRU_loop set_idx c.E.toNat 0 c
  store_line c1 set_idx line_idx { line_at c1 set_idx line_idx with LRU_age := 0 }

/-- The loop of `is_hit` from line `i` on, `n` lines left: the returned flag
and the cache after the call. -/
def is_hit_loop (c : cache) (tag set_idx : Nat) : Nat → Nat → Int × cache
  | 0, _ => (0, c)
  | n + 1, i =>
    if (line_at c set_idx i).valid = 1 ∧ (line_at c set_idx i).tag = tag then
      (1, update_LRU c set_idx i)
    else is_hit_loop c tag set_idx n (i + 1)

/-- The function `is_hit(c, tag, set_idx)`. -/
def is_hit (c : cache) (tag set_idx : Nat) : Int × cache :=
  is_hit_loop c tag set_idx c.E.toNat 0

/-- The loop of `find_empty_line` from line `i` on, `n` lines left. -/
def find_empty_line_loop (c : cache) (set_idx : Nat) : Nat → Nat → Nat
  | 0, _ => 0
  | n + 1, i =>
    if (line_at c set_idx i).valid = 0 then i
    else find_empty_line_loop c set_idx n (i + 1)

/-- The function `find_empty_line(c, set_idx)`. -/
def find_empty_line (c : cache) (set_idx : Nat) : Nat :=
  find_empty_line_loop c set_idx c.E.toNat 0

/-- The loop of `evict_line` from line `i` on, `n` lines left, carrying
`evict_line_idx` and `max_LRU_age`; the result is the final `evict_line_idx`. -/
def evict_line_loop (c : cache) (set_idx : Nat) : Nat → Nat → Nat → Int → Nat
  | 0, _, evict_line_idx, _ => evict_line_idx
  | n + 1, i, evict_line_idx, max_LRU_age =>
    if (line_at c set_idx i).LRU_age > max_LRU_age then
      evict_line_loop c set_idx n (i + 1) i (line_at c set_idx i).LRU_age
    else evict_line_loop c set_idx n (i + 1) evict_line_idx max_LRU_age

/-- The line index `evict_line` ends its loop with. -/
def evict_line_idx (c : cache) (set_idx : Nat) : Nat :=
  evict_line_loop c set_idx c.E.toNat 0 0 (-1)

/-- The function `evict_line(c, tag, set_idx)`: the chosen line gets
`valid = 1` and the tag, converted to `unsigned int`. -/
def evict_line (c : cache) (tag set_idx : Nat) : cache :=
  store_line c set_idx (evict_line_idx c set_idx)
    { line_at c set_idx (evict_line_idx c set_idx) with valid := 1, tag := tag % 2 ^ 32 }

/-- The function `update_cache(c, tag, set_idx, line_idx)`. -/
def update_cache (c : cache) (tag set_idx line_idx : Nat) : cache :=
  let c1 := store_line c set_idx line_idx
    { line_at c set_idx line_idx with tag := tag % 2 ^ 32 }
  let c2 := update_LRU c1 set_idx line_idx
  store_line c2 set_idx line_idx { line_at c2 set_idx line_idx with valid := 1 }

/-- The tag `handle_mem_trace` computes: `addr & c->tag_mask`. -/
def tag_of (c : cache) (addr : Nat) : Nat := addr &&& c.tag_mask

/-- The set index `handle_mem_trace` computes:
`(addr & c->set_mask) >> c->block_offset`. -/
def set_idx_of (c : cache) (addr : Nat) : Nat :=
  (addr &&& c.set_mask) >>> c.block_offset.toNat

/-- The function `handle_mem_trace(c, oper, addr)` on the program state; the
function does not read `oper`. -/
def handle_mem_trace (st : state) (_oper : Char) (addr : Nat) : state :=
  let tag := tag_of st.c addr
  let set_idx := set_idx_of st.c addr
  let r := is_hit st.c tag set_idx
  if r.1 ≠ 0 then
    { st with hits := st.hits + 1, c := r.2 }
  else
    let st1 : state := { st with misses := st.misses + 1, c := r.2 }
    let empty_line_idx := find_empty_line st1.c set_idx
    if empty_line_idx = 0 then
      { st1 with c := evict_line st1.c tag set_idx, evictions := st1.evictions + 1 }
    else
      { st1 with c := update_cache st1.c tag set_idx empty_line_idx }

/-- The program state before the first record: the counters are 0 and the
cache is the one `init_cache(s, E, b)` builds. -/
def init_state (s E b : Int) : state :=
  { hits := 0, misses := 0, evictions := 0, c := init_cache s E b }

/-- The calls of `handle_mem_trace` the loop of `handle_trace_file` makes, one
for each record `(oper, addr)` in order. -/
def replay (st : state) : List (Char × Nat) → state
  | [] => st
  | r :: rs => replay (handle_mem_trace st r.1 r.2) rs

/-- The lines of set `set_idx` as `(valid, tag, LRU_age)` triples. -/
def set_lines (c : cache) (set_idx : Nat) : List cache_line :=
  (c.sets.getD set_idx default).lines

/-- A set index is usable when the set exists and holds `c->E` lines. -/
def set_ok (c : cache) (set_idx : Nat) : Prop :=
  set_idx < c.sets.length ∧ (set_lines c set_idx).length = c.E.toNat

/-- The cache `c'` has the geometry, the masks and the array sizes of `c`:
what every function of the model leaves as it is. -/
def same_shape (c c' : cache) : Prop :=
  c'.E = c.E ∧ c'.tag_mask = c.tag_mask ∧ c'.set_mask = c.set_mask ∧
  c'.block_offset = c.block_offset ∧ c'.sets.length = c.sets.length ∧
  ∀ s, (set_lines c' s).length = (set_lines c s).length

/-- The state of a cache of one set of two lines (`s = 0`, `E = 2`, `b = 0`)
after the accesses to the addresses 1 and 2. -/
def example_state : state :=
  replay (init_state 0 2 0) [('L', 1), ('L', 2)]

/-- The state of a cache of one set of two lines (`s = 0`, `E = 2`, `b = 0`) in
which line 0 holds tag 10 with the greatest `int` age, `2 ^ 31 - 1`, and line 1
holds tag 11 with age 0: the state after the accesses to 10 and 11 and
`2 ^ 31 - 2` more accesses to 11. -/
def overflow_state : state :=
  { hits := 0, misses := 0, evictions := 0,
    c := { init_cache 0 2 0 with
           sets := [{ E := 2,
                      lines := [{ valid := 1, tag := 10, LRU_age := 2147483647 },
                                { valid := 1, tag := 11, LRU_age := 0 }] }] } }

/-- The line `c->sets[set_idx].lines[i]` lies inside the arrays: the cache has
the set and the set has the line. -/
@[reducible] def in_range (c : cache) (set_idx i : Nat) : Prop :=
  set_idx < c.sets.length ∧ i < (set_lines c set_idx).length

/-- The loop of `update_LRU` with every access to a line checked against the
arrays: `none` as soon as an access falls outside them. -/
def update_LRU_loop_checked (set_idx : Nat) : Nat → Nat → cache → Option cache
  | 0, _, c => some c
  | n + 1, i, c =>
    if in_range c set_idx i then
      update_LRU_loop_checked set_idx n (i + 1)
        (store_line c set_idx i
          { line_at c set_idx i with
            LRU_age := wrap_int ((line_at c set_idx i).LRU_age + 1) })
    else none

/-- The function `update_LRU` with every access checked. -/
def update_LRU_checked (c : cache) (set_idx line_idx : Nat) : Option cache :=
  match update_LRU_loop_checked set_idx c.E.toNat 0 c with
  | none => none
  | some c1 =>
    if in_range c1 set_idx line_idx then
      some (store_line c1 set_idx line_idx { line_at c1 set_idx line_idx with LRU_age := 0 })
    else none

/-- The loop of `is_hit` with every access checked. -/
def is_hit_loop_checked (c : cache) (tag set_idx : Nat) : Nat → Nat → Option (Int × cache)
  | 0, _ => some (0, c)
  | n + 1, i =>
    if in_range c set_idx i then
      if (line_at c set_idx i).valid = 1 ∧ (line_at c set_idx i).tag = tag then
        match update_LRU_checked c set_idx i with
        | none => none
        | some c1 => some (1, c1)
      else is_hit_loop_checked c tag set_idx n (i + 1)
    else none

/-- The loop of `find_empty_line` with every access checked. -/
def find_empty_line_loop_checked (c : cache) (set_idx : Nat) : Nat → Nat → Option Nat
  | 0, _ => some 0
  | n + 1, i =>
    if in_range c set_idx i then
      if (line_at c set_idx i).valid = 0 then some i
      else find_empty_line_loop_checked c set_idx n (i + 1)
    else none

/-- The loop of `evict_line` with every access checked. -/
def evict_line_loop_checked (c : cache) (set_idx : Nat) :
    Nat → Nat → Nat → Int → Option Nat
  | 0, _, evict_line_idx, _ => some evict_line_idx
  | n + 1, i, evict_line_idx, max_LRU_age =>
    if in_range c set_idx i then
      if (line_at c set_idx i).LRU_age > max_LRU_age then
        evict_line_loop_checked c set_idx n (i + 1) i (line_at c set_idx i).LRU_age
      else evict_line_loop_checked c set_idx n (i + 1) evict_line_idx max_LRU_age
    else none

/-- The function `evict_line` with every access checked. -/
def evict_line_checked (c : cache) (tag set_idx : Nat) : Option cache :=
  match evict_line_loop_checked c set_idx c.E.toNat 0 0 (-1) with
  | none => none
  | some idx =>
    if in_range c set_idx idx then
      some (store_line c set_idx idx
        { line_at c set_idx idx with valid := 1, tag := tag % 2 ^ 32 })
    else none

/-- The function `update_cache` with every access checked. -/
def update_cache_checked (c : cache) (tag set_idx line_idx : Nat) : Option cache :=
  if in_range c set_idx line_idx then
    match update_LRU_checked
        (store_line c set_idx line_idx { line_at c set_idx line_idx with tag := tag % 2 ^ 32 })
        set_idx line_idx with
    | none => none
    | some c2 =>
      some (store_line c2 set_idx line_idx { line_at c2 set_idx line_idx with valid := 1 })
  else none

/-- The function `handle_mem_trace` with every access to the arrays of sets
and lines checked: `none` when the call reads or writes outside them, and the
state after the call otherwise. -/
def handle_mem_trace_checked (st : state) (_oper : Char) (addr : Nat) : Option state :=
  match is_hit_loop_checked st.c (tag_of st.c addr) (set_idx_of st.c addr) st.c.E.toNat 0 with
  | none => none
  | some r =>
    if r.1 ≠ 0 then
      some { st with hits := st.hits + 1, c := r.2 }
    else
      match find_empty_line_loop_checked r.2 (set_idx_of st.c addr) r.2.E.toNat 0 with
      | none => none
      | some empty_line_idx =>
        if empty_line_idx = 0 then
          match evict_line_checked r.2 (tag_of st.c addr) (set_idx_of st.c addr) with
          | none => none
          | some c1 =>
            some { st with misses := st.misses + 1, c := c1, evictions := st.evictions + 1 }
        else
          match update_cache_checked r.2 (tag_of st.c addr) (set_idx_of st.c addr)
              empty_line_idx with
          | none => none
          | some c1 => some { st with misses := st.misses + 1, c := c1 }

/-- The number of lines of the cache with `valid == 1`. -/
def valid_count (c : cache) : Nat :=
  Finset.sum (Finset.range c.sets.length) fun s =>
    Finset.sum (Finset.range (set_lines c s).length) fun k =>
      if (line_at c s k).valid = 1 then 1 else 0

/-- The invariant of the ages of set `s'` after at most `n` calls of
`handle_mem_trace` on a fresh cache: every age is between 0 and `n`; every valid
flag is 0 or 1; the valid lines have pairwise distinct ages; and either the set
is untouched (all lines invalid with age 0) or its line 0 is valid. -/
def age_inv (n : Nat) (c : cache) (s' : Nat) : Prop :=
  (∀ k, 0 ≤ (line_at c s' k).LRU_age ∧ (line_at c s' k).LRU_age ≤ n) ∧
  (∀ k, (line_at c s' k).valid = 0 ∨ (line_at c s' k).valid = 1) ∧
  (∀ k l, (line_at c s' k).valid = 1 → (line_at c s' l).valid = 1 → k ≠ l →
    (line_at c s' k).LRU_age ≠ (line_at c s' l).LRU_age) ∧
  ((∀ k, (line_at c s' k).valid = 0 ∧ (line_at c s' k).LRU_age = 0) ∨
    (line_at c s' 0).valid = 1)

/-! Reads and writes of one line, loops, and the claims. -/

set_option maxRecDepth 100000

/-- An `int` result inside the range is kept as it is. -/
theorem wrap_int_of_range (z : Int) (h1 : -2 ^ 31 ≤ z) (h2 : z < 2 ^ 31) : wrap_int z = z := by
  unfold wrap_int
  omega

theorem line_at_eq (c : cache) (s i : Nat) :
    line_at c s i = (set_lines c s).getD i default := rfl

theorem set_lines_store_line (c : cache) (s i : Nat) (l : cache_line) (s' : Nat) :
    set_lines (store_line c s i l) s' =
      if s' = s ∧ s < c.sets.length then (set_lines c s).set i l else set_lines c s' := by
  unfold set_lines store_line
  simp only [List.getD_eq_getElem?_getD, List.getElem?_set]
  by_cases h : s = s'
  · subst h
    by_cases h2 : s < c.sets.length
    · simp [h2]
    · simp [h2, List.getElem?_eq_none (Nat.le_of_not_lt h2)]
  · have h' : ¬ s' = s := fun e => h e.symm
    simp [h, h']

theorem line_at_store_line (c : cache) (s i : Nat) (l : cache_line) (s' k : Nat) :
    line_at (store_line c s i l) s' k =
      if s' = s ∧ k = i ∧ s < c.sets.length ∧ i < (set_lines c s).length then l
      else line_at c s' k := by
  rw [line_at_eq, line_at_eq, set_lines_store_line]
  by_cases h1 : s' = s ∧ s < c.sets.length
  · obtain ⟨rfl, h2⟩ := h1
    simp only [h2, and_self, if_true, true_and, and_true, List.getD_eq_getElem?_getD,
      List.getElem?_set]
    by_cases h3 : i = k
    · subst h3
      by_cases h4 : i < (set_lines c s').length
      · simp [h4]
      · simp [h4, List.getElem?_eq_none (Nat.le_of_not_lt h4)]
    · have h3' : ¬ k = i := fun e => h3 e.symm
      simp [h3, h3']
  · rw [if_neg h1]
    have : ¬ (s' = s ∧ k = i ∧ s < c.sets.length ∧ i < (set_lines c s).length) := by
      rintro ⟨a, -, b, -⟩
      exact h1 ⟨a, b⟩
    rw [if_neg this]

@[simp] theorem store_line_E (c : cache) (s i : Nat) (l : cache_line) :
    (store_line c s i l).E = c.E := rfl

@[simp] theorem store_line_tag_mask (c : cache) (s i : Nat) (l : cache_line) :
    (store_line c s i l).tag_mask = c.tag_mask := rfl

@[simp] theorem store_line_set_mask (c : cache) (s i : Nat) (l : cache_line) :
    (store_line c s i l).set_mask = c.set_mask := rfl

@[simp] theorem store_line_block_offset (c : cache) (s i : Nat) (l : cache_line) :
    (store_line c s i l).block_offset = c.block_offset := rfl

@[simp] theorem store_line_sets_length (c : cache) (s i : Nat) (l : cache_line) :
    (store_line c s i l).sets.length = c.sets.length := by
  simp [store_line]

@[simp] theorem set_lines_store_line_length (c : cache) (s i : Nat) (l : cache_line) (s' : Nat) :
    (set_lines (store_line c s i l) s').length = (set_lines c s').length := by
  rw [set_lines_store_line]
  split
  · rename_i h
    rw [h.1, List.length_set]
  · rfl

theorem set_ok_store_line (c : cache) (s i : Nat) (l : cache_line) (s' : Nat) :
    set_ok (store_line c s i l) s' ↔ set_ok c s' := by
  simp [set_ok]

theorem same_shape_refl (c : cache) : same_shape c c :=
  ⟨rfl, rfl, rfl, rfl, rfl, fun _ => rfl⟩

theorem same_shape_trans {c c' c'' : cache} (h : same_shape c c') (h' : same_shape c' c'') :
    same_shape c c'' :=
  ⟨h'.1.trans h.1, h'.2.1.trans h.2.1, h'.2.2.1.trans h.2.2.1, h'.2.2.2.1.trans h.2.2.2.1,
    h'.2.2.2.2.1.trans h.2.2.2.2.1, fun s => (h'.2.2.2.2.2 s).trans (h.2.2.2.2.2 s)⟩

theorem same_shape_store_line (c : cache) (s i : Nat) (l : cache_line) :
    same_shape c (store_line c s i l) :=
  ⟨rfl, rfl, rfl, rfl, store_line_sets_length c s i l,
    fun s' => set_lines_store_line_length c s i l s'⟩

theorem same_shape_set_ok {c c' : cache} (h : same_shape c c') (s : Nat) :
    set_ok c' s ↔ set_ok c s := by
  unfold set_ok
  rw [h.2.2.2.2.1, h.2.2.2.2.2 s, h.1]

theorem set_idx_of_same_shape {c c' : cache} (h : same_shape c c') (addr : Nat) :
    set_idx_of c' addr = set_idx_of c addr := by
  unfold set_idx_of
  rw [h.2.2.1, h.2.2.2.1]

theorem same_shape_update_LRU_loop (s n i : Nat) (c : cache) :
    same_shape c (update_LRU_loop s n i c) := by
  induction n generalizing i c with
  | zero => exact same_shape_refl c
  | succ n ih =>
    unfold update_LRU_loop
    exact same_shape_trans (same_shape_store_line c s i _) (ih (i + 1) _)

theorem line_at_update_LRU_loop (s n i : Nat) (c : cache) (hs : s < c.sets.length)
    (hn : i + n ≤ (set_lines c s).length) (s' k : Nat) :
    line_at (update_LRU_loop s n i c) s' k =
      if s' = s ∧ i ≤ k ∧ k < i + n then
        { line_at c s k with LRU_age := wrap_int ((line_at c s k).LRU_age + 1) }
      else line_at c s' k := by
  induction n generalizing i c with
  | zero =>
    have : ¬ (s' = s ∧ i ≤ k ∧ k < i + 0) := by omega
    rw [if_neg this]
    rfl
  | succ n ih =>
    unfold update_LRU_loop
    have hsh := same_shape_store_line c s i
      { line_at c s i with LRU_age := wrap_int ((line_at c s i).LRU_age + 1) }
    rw [ih (i + 1) _ (by rw [hsh.2.2.2.2.1]; exact hs) (by rw [hsh.2.2.2.2.2 s]; omega)]
    rw [line_at_store_line, line_at_store_line]
    have hi : i < (set_lines c s).length := by omega
    by_cases h1 : s' = s
    · subst h1
      by_cases h2 : k = i
      · subst h2
        simp [hs, hi]
      · by_cases h3 : i + 1 ≤ k ∧ k < i + 1 + n
        · have h4 : i ≤ k ∧ k < i + (n + 1) := by omega
          simp [h2, h3, h4]
        · have h4 : ¬ (i ≤ k ∧ k < i + (n + 1)) := by omega
          simp [h2, h3, h4]
    · simp [h1]

theorem same_shape_update_LRU (c : cache) (s i : Nat) : same_shape c (update_LRU c s i) := by
  unfold update_LRU
  exact same_shape_trans (same_shape_update_LRU_loop s _ 0 c) (same_shape_store_line _ s i _)

/-- The lines of the cache after `update_LRU(c, set_idx, line_idx)`. -/
theorem line_at_update_LRU (c : cache) (s i : Nat) (hok : set_ok c s) (hi : i < c.E.toNat)
    (s' k : Nat) :
    line_at (update_LRU c s i) s' k =
      if s' = s ∧ k < c.E.toNat then
        (if k = i then { line_at c s k with LRU_age := 0 }
         else { line_at c s k with LRU_age := wrap_int ((line_at c s k).LRU_age + 1) })
      else line_at c s' k := by
  unfold update_LRU
  have hsh := same_shape_update_LRU_loop s c.E.toNat 0 c
  simp only []
  rw [line_at_store_line, hsh.2.2.2.2.1, hsh.2.2.2.2.2 s,
    line_at_update_LRU_loop s _ 0 c hok.1 (by rw [hok.2]; omega),
    line_at_update_LRU_loop s _ 0 c hok.1 (by rw [hok.2]; omega)]
  have hi' : i < (set_lines c s).length := by rw [hok.2]; exact hi
  by_cases h1 : s' = s
  · subst h1
    by_cases h2 : k = i
    · subst h2
      simp [hok.1, hi', hi]
    · by_cases h3 : k < c.E.toNat
      · simp [h2, h3]
      · simp [h2, h3]
  · simp [h1]

theorem is_hit_loop_found (c : cache) (tag s : Nat) (n j i : Nat) (hj : j ≤ i)
    (hi : i < j + n)
    (hm : (line_at c s i).valid = 1 ∧ (line_at c s i).tag = tag)
    (hlow : ∀ k, j ≤ k → k < i → ¬ ((line_at c s k).valid = 1 ∧ (line_at c s k).tag = tag)) :
    is_hit_loop c tag s n j = (1, update_LRU c s i) := by
  induction n generalizing j with
  | zero => omega
  | succ n ih =>
    unfold is_hit_loop
    by_cases hji : j = i
    · subst hji
      rw [if_pos hm]
    · rw [if_neg (hlow j (Nat.le_refl j) (by omega))]
      exact ih (j + 1) (by omega) (by omega) (fun k hk hki => hlow k (by omega) hki)

theorem is_hit_loop_miss (c : cache) (tag s : Nat) (n j : Nat)
    (h : (is_hit_loop c tag s n j).1 = 0) : is_hit_loop c tag s n j = (0, c) := by
  induction n generalizing j with
  | zero => rfl
  | succ n ih =>
    unfold is_hit_loop at h ⊢
    split
    · rename_i hm
      rw [if_pos hm] at h
      simp at h
    · rename_i hm
      rw [if_neg hm] at h
      exact ih (j + 1) h

theorem find_empty_line_loop_full (c : cache) (s : Nat) (n j : Nat)
    (hfull : ∀ k, j ≤ k → k < j + n → (line_at c s k).valid ≠ 0) :
    find_empty_line_loop c s n j = 0 := by
  induction n generalizing j with
  | zero => rfl
  | succ n ih =>
    unfold find_empty_line_loop
    rw [if_neg (hfull j (Nat.le_refl j) (by omega))]
    exact ih (j + 1) (fun k hk hkn => hfull k (by omega) (by omega))

/-- What the loop of `evict_line` returns: either no line of the scanned range
is older than `max_LRU_age` and the index is the one carried in, or the index
is the first line of the range with the greatest age of the range. -/
theorem evict_line_loop_spec (c : cache) (s : Nat) (n i idx : Nat) (m : Int) :
    (evict_line_loop c s n i idx m = idx ∧
        ∀ k, i ≤ k → k < i + n → (line_at c s k).LRU_age ≤ m) ∨
    (i ≤ evict_line_loop c s n i idx m ∧ evict_line_loop c s n i idx m < i + n ∧
      m < (line_at c s (evict_line_loop c s n i idx m)).LRU_age ∧
      (∀ k, i ≤ k → k < i + n →
        (line_at c s k).LRU_age ≤ (line_at c s (evict_line_loop c s n i idx m)).LRU_age) ∧
      (∀ k, i ≤ k → k < evict_line_loop c s n i idx m →
        (line_at c s k).LRU_age < (line_at c s (evict_line_loop c s n i idx m)).LRU_age)) := by
  induction n generalizing i idx m with
  | zero =>
    left
    exact ⟨rfl, fun k hk hkn => by omega⟩
  | succ n ih =>
    unfold evict_line_loop
    by_cases hgt : (line_at c s i).LRU_age > m
    · rw [if_pos hgt]
      right
      rcases ih (i + 1) i (line_at c s i).LRU_age with ⟨hr, hle⟩ | ⟨h1, h2, h3, h4, h5⟩
      · rw [hr]
        refine ⟨Nat.le_refl i, by omega, hgt, ?_, fun k hk hki => by omega⟩
        intro k hk hkn
        by_cases hki : k = i
        · rw [hki]
        · exact hle k (by omega) (by omega)
      · refine ⟨by omega, by omega, by omega, ?_, ?_⟩
        · intro k hk hkn
          by_cases hki : k = i
          · rw [hki]; omega
          · exact h4 k (by omega) (by omega)
        · intro k hk hkr
          by_cases hki : k = i
          · rw [hki]; exact h3
          · exact h5 k (by omega) hkr
    · rw [if_neg hgt]
      have hle0 : (line_at c s i).LRU_age ≤ m := by omega
      rcases ih (i + 1) idx m with ⟨hr, hle⟩ | ⟨h1, h2, h3, h4, h5⟩
      · left
        refine ⟨hr, ?_⟩
        intro k hk hkn
        by_cases hki : k = i
        · rw [hki]; exact hle0
        · exact hle k (by omega) (by omega)
      · right
        refine ⟨by omega, by omega, h3, ?_, ?_⟩
        · intro k hk hkn
          by_cases hki : k = i
          · rw [hki]; omega
          · exact h4 k (by omega) (by omega)
        · intro k hk hkr
          by_cases hki : k = i
          · rw [hki]; omega
          · exact h5 k (by omega) hkr

/-- With at least one line and no negative age, `evict_line` ends its loop on
the first line that has the greatest age of the set. -/
theorem evict_line_idx_spec (c : cache) (s : Nat) (hE : 1 ≤ c.E)
    (hage : ∀ k, k < c.E.toNat → 0 ≤ (line_at c s k).LRU_age) :
    evict_line_idx c s < c.E.toNat ∧
    (∀ k, k < c.E.toNat →
      (line_at c s k).LRU_age ≤ (line_at c s (evict_line_idx c s)).LRU_age) ∧
    (∀ k, k < evict_line_idx c s →
      (line_at c s k).LRU_age < (line_at c s (evict_line_idx c s)).LRU_age) := by
  unfold evict_line_idx
  rcases evict_line_loop_spec c s c.E.toNat 0 0 (-1) with ⟨_, hle⟩ | ⟨_, h2, _, h4, h5⟩
  · have h0 := hle 0 (Nat.le_refl 0) (by omega)
    have h0' := hage 0 (by omega)
    omega
  · exact ⟨by omega, fun k hk => h4 k (Nat.zero_le k) (by omega),
      fun k hk => h5 k (Nat.zero_le k) hk⟩

/-- The state after a call of `handle_mem_trace` that finds the tag in line `i`. -/
theorem handle_mem_trace_of_hit (st : state) (oper : Char) (addr i : Nat)
    (hi : i < st.c.E.toNat)
    (hm : (line_at st.c (set_idx_of st.c addr) i).valid = 1 ∧
      (line_at st.c (set_idx_of st.c addr) i).tag = tag_of st.c addr)
    (hlow : ∀ k, k < i → ¬ ((line_at st.c (set_idx_of st.c addr) k).valid = 1 ∧
      (line_at st.c (set_idx_of st.c addr) k).tag = tag_of st.c addr)) :
    handle_mem_trace st oper addr =
      { st with hits := st.hits + 1, c := update_LRU st.c (set_idx_of st.c addr) i } := by
  have h := is_hit_loop_found st.c (tag_of st.c addr) (set_idx_of st.c addr) st.c.E.toNat 0 i
    (Nat.zero_le i) (by omega) hm (fun k _ hk => hlow k hk)
  unfold handle_mem_trace is_hit
  simp only [h]
  simp

/-- The state after a call of `handle_mem_trace` that counts a miss while no
line of the set has `valid == 0`. -/
theorem handle_mem_trace_of_full_miss (st : state) (oper : Char) (addr : Nat)
    (hmiss : (handle_mem_trace st oper addr).misses = st.misses + 1)
    (hfull : ∀ k, k < st.c.E.toNat → (line_at st.c (set_idx_of st.c addr) k).valid ≠ 0) :
    handle_mem_trace st oper addr =
      { st with misses := st.misses + 1, evictions := st.evictions + 1,
                c := evict_line st.c (tag_of st.c addr) (set_idx_of st.c addr) } := by
  have h0 : (is_hit st.c (tag_of st.c addr) (set_idx_of st.c addr)).1 = 0 := by
    by_contra hne
    unfold handle_mem_trace at hmiss
    simp only [] at hmiss
    rw [if_pos hne] at hmiss
    simp at hmiss
  have h1 := is_hit_loop_miss st.c (tag_of st.c addr) (set_idx_of st.c addr) st.c.E.toNat 0 h0
  have h2 := find_empty_line_loop_full st.c (set_idx_of st.c addr) st.c.E.toNat 0
    (fun k _ hk => hfull k (by omega))
  unfold handle_mem_trace is_hit find_empty_line
  simp only [h1]
  simp [h2]

/-- Victim selection of `evict_line`. In a set of `E ≥ 1` lines with no negative
age, `evict_line` writes one line only: the line `v` of lowest index among the
lines of greatest age gets `valid = 1` and the low 32 bits of the new tag, the
value the `unsigned int` field keeps, and keeps its age; every other line of
the cache is as before. -/
theorem evict_line_victim (c : cache) (tag s : Nat) (hE : 1 ≤ c.E) (hok : set_ok c s)
    (hage : ∀ k, k < c.E.toNat → 0 ≤ (line_at c s k).LRU_age) :
    ∃ v, v < c.E.toNat ∧
      (∀ k, k < c.E.toNat → (line_at c s k).LRU_age ≤ (line_at c s v).LRU_age) ∧
      (∀ k, k < v → (line_at c s k).LRU_age < (line_at c s v).LRU_age) ∧
      line_at (evict_line c tag s) s v =
        { valid := 1, tag := tag % 2 ^ 32, LRU_age := (line_at c s v).LRU_age } ∧
      (∀ s' k, (s' ≠ s ∨ k ≠ v) → line_at (evict_line c tag s) s' k = line_at c s' k) := by
  obtain ⟨h1, h2, h3⟩ := evict_line_idx_spec c s hE hage
  refine ⟨evict_line_idx c s, h1, h2, h3, ?_, ?_⟩
  · unfold evict_line
    rw [line_at_store_line]
    have hlen : evict_line_idx c s < (set_lines c s).length := by rw [hok.2]; exact h1
    simp [hok.1, hlen]
  · intro s' k hne
    unfold evict_line
    rw [line_at_store_line]
    have : ¬ (s' = s ∧ k = evict_line_idx c s ∧ s < c.sets.length ∧
        evict_line_idx c s < (set_lines c s).length) := by
      rintro ⟨a, b, -, -⟩
      rcases hne with h | h
      · exact h a
      · exact h b
    rw [if_neg this]

/-- C10, as stated (all ages non-negative), fails when a line has the age
`2 ^ 31 - 1`. Set 0 holds tag 10 with age `2 ^ 31 - 1` in line 0 and tag 11
with age 0 in line 1, both valid; the access to address 11 hits line 1 and
turns the age of line 0 into `-2 ^ 31`; the access to address 12 then misses
and overwrites line 1, the line that was just hit. -/
theorem handle_mem_trace_retouch_overflow :
    2 ≤ overflow_state.c.E ∧
    (∀ k, k < overflow_state.c.E.toNat →
      (line_at overflow_state.c (set_idx_of overflow_state.c 11) k).valid = 1 ∧
      0 ≤ (line_at overflow_state.c (set_idx_of overflow_state.c 11) k).LRU_age) ∧
    (line_at overflow_state.c (set_idx_of overflow_state.c 11) 1).tag =
      tag_of overflow_state.c 11 ∧
    set_idx_of overflow_state.c 12 = set_idx_of overflow_state.c 11 ∧
    (handle_mem_trace overflow_state 'L' 11).hits = overflow_state.hits + 1 ∧
    (handle_mem_trace (handle_mem_trace overflow_state 'L' 11) 'L' 12).misses =
      (handle_mem_trace overflow_state 'L' 11).misses + 1 ∧
    (line_at (handle_mem_trace (handle_mem_trace overflow_state 'L' 11) 'L' 12).c
      (set_idx_of overflow_state.c 11) 1).tag = 12 ∧
    (line_at (handle_mem_trace (handle_mem_trace overflow_state 'L' 11) 'L' 12).c
      (set_idx_of overflow_state.c 11) 1).tag ≠ tag_of overflow_state.c 11 := by
  decide

/-- C10, amended (re-touch protection). In a set of `E ≥ 2` lines, all valid
and every age non-negative and below `2 ^ 31 - 1`, let an access hit its tag in
line `i` and let the next access go to the same set and be counted as a miss:
after both, line `i` is valid and holds the tag that was hit. -/
theorem handle_mem_trace_retouch (st : state) (op1 op2 : Char) (a1 a2 i : Nat)
    (hE : 2 ≤ st.c.E)
    (hok : set_ok st.c (set_idx_of st.c a1))
    (hvalid : ∀ k, k < st.c.E.toNat → (line_at st.c (set_idx_of st.c a1) k).valid = 1)
    (hage : ∀ k, k < st.c.E.toNat →
      0 ≤ (line_at st.c (set_idx_of st.c a1) k).LRU_age ∧
      (line_at st.c (set_idx_of st.c a1) k).LRU_age < 2 ^ 31 - 1)
    (hi : i < st.c.E.toNat)
    (hm : (line_at st.c (set_idx_of st.c a1) i).valid = 1 ∧
      (line_at st.c (set_idx_of st.c a1) i).tag = tag_of st.c a1)
    (hlow : ∀ k, k < i → ¬ ((line_at st.c (set_idx_of st.c a1) k).valid = 1 ∧
      (line_at st.c (set_idx_of st.c a1) k).tag = tag_of st.c a1))
    (hset : set_idx_of st.c a2 = set_idx_of st.c a1)
    (hmiss : (handle_mem_trace (handle_mem_trace st op1 a1) op2 a2).misses =
      (handle_mem_trace st op1 a1).misses + 1) :
    (handle_mem_trace st op1 a1).hits = st.hits + 1 ∧
    (handle_mem_trace st op1 a1).misses = st.misses ∧
    (line_at (handle_mem_trace (handle_mem_trace st op1 a1) op2 a2).c
      (set_idx_of st.c a1) i).tag = tag_of st.c a1 ∧
    (line_at (handle_mem_trace (handle_mem_trace st op1 a1) op2 a2).c
      (set_idx_of st.c a1) i).valid = 1 := by
  have hsh := same_shape_update_LRU st.c (set_idx_of st.c a1) i
  have h1 := handle_mem_trace_of_hit st op1 a1 i hi hm hlow
  have hc1 : (handle_mem_trace st op1 a1).c = update_LRU st.c (set_idx_of st.c a1) i := by
    rw [h1]
  have hs2 : set_idx_of (handle_mem_trace st op1 a1).c a2 = set_idx_of st.c a1 := by
    rw [hc1, set_idx_of_same_shape hsh]
    exact hset
  have hE1 : (handle_mem_trace st op1 a1).c.E = st.c.E := by rw [hc1]; exact hsh.1
  have hline : ∀ k, line_at (handle_mem_trace st op1 a1).c (set_idx_of st.c a1) k =
      if k < st.c.E.toNat then
        (if k = i then { line_at st.c (set_idx_of st.c a1) k with LRU_age := 0 }
         else { line_at st.c (set_idx_of st.c a1) k with
                LRU_age := (line_at st.c (set_idx_of st.c a1) k).LRU_age + 1 })
      else line_at st.c (set_idx_of st.c a1) k := by
    intro k
    rw [hc1, line_at_update_LRU st.c _ i hok hi]
    by_cases hk : k < st.c.E.toNat
    · have hb := hage k hk
      simp only [hk, and_self, if_true]
      rw [wrap_int_of_range _ (by omega) (by omega)]
    · simp [hk]
  have hfull : ∀ k, k < (handle_mem_trace st op1 a1).c.E.toNat →
      (line_at (handle_mem_trace st op1 a1).c
        (set_idx_of (handle_mem_trace st op1 a1).c a2) k).valid ≠ 0 := by
    intro k hk
    rw [hE1] at hk
    rw [hs2, hline k, if_pos hk]
    have hv := hvalid k hk
    split <;> simp [hv]
  have h2 := handle_mem_trace_of_full_miss (handle_mem_trace st op1 a1) op2 a2 hmiss hfull
  have hage1 : ∀ k, k < (handle_mem_trace st op1 a1).c.E.toNat →
      0 ≤ (line_at (handle_mem_trace st op1 a1).c (set_idx_of st.c a1) k).LRU_age := by
    intro k hk
    rw [hE1] at hk
    rw [hline k, if_pos hk]
    have ha := (hage k hk).1
    split
    · simp
    · simp only []
      omega
  have hok1 : set_ok (handle_mem_trace st op1 a1).c (set_idx_of st.c a1) := by
    rw [hc1]
    exact (same_shape_set_ok hsh _).2 hok
  obtain ⟨v1, v2, _⟩ := evict_line_idx_spec (handle_mem_trace st op1 a1).c
    (set_idx_of st.c a1) (by rw [hE1]; omega) hage1
  have hne : i ≠ evict_line_idx (handle_mem_trace st op1 a1).c (set_idx_of st.c a1) := by
    intro heq
    obtain ⟨j, hj, hji⟩ : ∃ j, j < st.c.E.toNat ∧ j ≠ i := by
      by_cases h0 : i = 0
      · exact ⟨1, by omega, by omega⟩
      · exact ⟨0, by omega, fun e => h0 e.symm⟩
    have hle := v2 j (by rw [hE1]; exact hj)
    rw [← heq, hline j, hline i, if_pos hj, if_pos hi, if_neg hji, if_pos rfl] at hle
    have ha := (hage j hj).1
    simp only [] at hle
    omega
  have hkeep : line_at (handle_mem_trace (handle_mem_trace st op1 a1) op2 a2).c
      (set_idx_of st.c a1) i =
      { line_at st.c (set_idx_of st.c a1) i with LRU_age := 0 } := by
    rw [h2]
    simp only []
    rw [hs2]
    unfold evict_line
    rw [line_at_store_line]
    have : ¬ (set_idx_of st.c a1 = set_idx_of st.c a1 ∧
        i = evict_line_idx (handle_mem_trace st op1 a1).c (set_idx_of st.c a1) ∧
        set_idx_of st.c a1 < (handle_mem_trace st op1 a1).c.sets.length ∧
        evict_line_idx (handle_mem_trace st op1 a1).c (set_idx_of st.c a1) <
          (set_lines (handle_mem_trace st op1 a1).c (set_idx_of st.c a1)).length) := by
      rintro ⟨-, b, -, -⟩
      exact hne b
    rw [if_neg this, hline i, if_pos hi, if_pos rfl]
  refine ⟨by rw [h1], by rw [h1], ?_, ?_⟩
  · rw [hkeep]
    exact hm.2
  · rw [hkeep]
    exact hm.1

/-- Victim selection at a concrete state: after the accesses 1 and 2 the lines
have the ages 1 and 0 and `evict_line` is called with tag 3. -/
theorem evict_line_victim_witness :
    ∃ v, v < example_state.c.E.toNat ∧
      (∀ k, k < example_state.c.E.toNat →
        (line_at example_state.c 0 k).LRU_age ≤ (line_at example_state.c 0 v).LRU_age) ∧
      (∀ k, k < v →
        (line_at example_state.c 0 k).LRU_age < (line_at example_state.c 0 v).LRU_age) ∧
      line_at (evict_line example_state.c 3 0) 0 v =
        { valid := 1, tag := 3 % 2 ^ 32, LRU_age := (line_at example_state.c 0 v).LRU_age } ∧
      (∀ s' k, (s' ≠ 0 ∨ k ≠ v) →
        line_at (evict_line example_state.c 3 0) s' k = line_at example_state.c s' k) :=
  evict_line_victim example_state.c 3 0 (by decide) ⟨by decide, by decide⟩ (by decide)

/-- C8 (victim selection) at a tag of more than 32 bits. In the state after the
accesses 1 and 2 (ages 1 and 0) `evict_line` is called with the tag
`0x100000005`, as the access to that address makes it: the line chosen is
line 0, the line of lowest index with the greatest age, but the tag it holds
afterwards is 5, the low 32 bits, not the new tag. -/
theorem evict_line_stores_low_bits :
    tag_of example_state.c 4294967301 = 4294967301 ∧
    set_lines example_state.c 0 =
      [{ valid := 1, tag := 1, LRU_age := 1 }, { valid := 1, tag := 2, LRU_age := 0 }] ∧
    evict_line_idx example_state.c 0 = 0 ∧
    set_lines (evict_line example_state.c 4294967301 0) 0 =
      [{ valid := 1, tag := 5, LRU_age := 1 }, { valid := 1, tag := 2, LRU_age := 0 }] ∧
    (line_at (evict_line example_state.c 4294967301 0) 0 0).tag ≠ 4294967301 ∧
    set_lines (handle_mem_trace example_state 'L' 4294967301).c 0 =
      [{ valid := 1, tag := 5, LRU_age := 1 }, { valid := 1, tag := 2, LRU_age := 0 }] := by
  decide

/-- Re-touch protection at a concrete state: after the accesses 1 and 2 the
access to address 1 hits line 0 and the access to address 3 misses. -/
theorem handle_mem_trace_retouch_witness :
    (handle_mem_trace example_state 'L' 1).hits = example_state.hits + 1 ∧
    (handle_mem_trace example_state 'L' 1).misses = example_state.misses ∧
    (line_at (handle_mem_trace (handle_mem_trace example_state 'L' 1) 'L' 3).c
      (set_idx_of example_state.c 1) 0).tag = tag_of example_state.c 1 ∧
    (line_at (handle_mem_trace (handle_mem_trace example_state 'L' 1) 'L' 3).c
      (set_idx_of example_state.c 1) 0).valid = 1 :=
  handle_mem_trace_retouch example_state 'L' 'L' 1 3 0 (by decide) ⟨by decide, by decide⟩
    (by decide) (by decide) (by decide) (by decide) (by decide) (by decide) (by decide)

/-- C1 (scenario `[A, B, A, C]`, one set of two lines). With `A = 1`, `B = 2`,
`C = 3` on a fresh cache the first access already counts an eviction, because
`find_empty_line` answers 0 for the empty line 0; the run ends with `hits = 1`,
`misses = 3`, `evictions = 2`, and the lines hold the tags 1 and 3. -/
theorem replay_ABAC_counts :
    (handle_mem_trace (init_state 0 2 0) 'L' 1).misses = 1 ∧
    (handle_mem_trace (init_state 0 2 0) 'L' 1).evictions = 1 ∧
    (replay (init_state 0 2 0) [('L', 1), ('L', 2), ('L', 1), ('L', 3)]).hits = 1 ∧
    (replay (init_state 0 2 0) [('L', 1), ('L', 2), ('L', 1), ('L', 3)]).misses = 3 ∧
    (replay (init_state 0 2 0) [('L', 1), ('L', 2), ('L', 1), ('L', 3)]).evictions = 2 ∧
    set_lines (replay (init_state 0 2 0) [('L', 1), ('L', 2), ('L', 1), ('L', 3)]).c 0 =
      [{ valid := 1, tag := 1, LRU_age := 0 }, { valid := 1, tag := 3, LRU_age := 1 }] := by
  decide

/-- C2 (filling a set). For `E = 2` on a fresh cache of one set, the accesses to
the two tags 1 and 2 leave `hits = 0`, `misses = 2` and `evictions = 1`, not 0,
and the access to the third tag 3 raises `misses` to 3 and `evictions` to 2. -/
theorem replay_fill_set_counts :
    (replay (init_state 0 2 0) [('L', 1), ('L', 2)]).hits = 0 ∧
    (replay (init_state 0 2 0) [('L', 1), ('L', 2)]).misses = 2 ∧
    (replay (init_state 0 2 0) [('L', 1), ('L', 2)]).evictions = 1 ∧
    (replay (init_state 0 2 0) [('L', 1), ('L', 2), ('L', 3)]).misses = 3 ∧
    (replay (init_state 0 2 0) [('L', 1), ('L', 2), ('L', 3)]).evictions = 2 := by
  decide

/-- C3 (true LRU over a trace). On a fresh cache of one set of two lines the
trace 1, 2, 3, 4 has the set full with the tags 3 and 2 before its last
access; that access is a miss and overwrites the line of tag 3, the tag
accessed last, and keeps tag 2, the tag accessed longest ago. -/
theorem replay_evicts_most_recent :
    set_lines (replay (init_state 0 2 0) [('L', 1), ('L', 2), ('L', 3)]).c 0 =
      [{ valid := 1, tag := 3, LRU_age := 1 }, { valid := 1, tag := 2, LRU_age := 0 }] ∧
    (replay (init_state 0 2 0) [('L', 1), ('L', 2), ('L', 3), ('L', 4)]).misses =
      (replay (init_state 0 2 0) [('L', 1), ('L', 2), ('L', 3)]).misses + 1 ∧
    set_lines (replay (init_state 0 2 0) [('L', 1), ('L', 2), ('L', 3), ('L', 4)]).c 0 =
      [{ valid := 1, tag := 4, LRU_age := 1 }, { valid := 1, tag := 2, LRU_age := 0 }] := by
  decide

/-- C4 (repeat in a direct-mapped cache). For `s = 0`, `E = 1`, `b = 0` and the
address `2 ^ 32` the tag is `2 ^ 32`, the line keeps its low 32 bits, 0, and
the second access to the same address is a miss again: `hits` stays, `misses`
and `evictions` grow by 1. -/
theorem handle_mem_trace_repeat_not_hit :
    tag_of (init_state 0 1 0).c 4294967296 = 4294967296 ∧
    set_lines (handle_mem_trace (init_state 0 1 0) 'L' 4294967296).c 0 =
      [{ valid := 1, tag := 0, LRU_age := 0 }] ∧
    (handle_mem_trace (handle_mem_trace (init_state 0 1 0) 'L' 4294967296) 'L' 4294967296).hits
      = (handle_mem_trace (init_state 0 1 0) 'L' 4294967296).hits ∧
    (handle_mem_trace (handle_mem_trace (init_state 0 1 0) 'L' 4294967296) 'L' 4294967296).misses
      = (handle_mem_trace (init_state 0 1 0) 'L' 4294967296).misses + 1 ∧
    (handle_mem_trace (handle_mem_trace (init_state 0 1 0) 'L' 4294967296) 'L'
        4294967296).evictions
      = (handle_mem_trace (init_state 0 1 0) 'L' 4294967296).evictions + 1 := by
  decide

/-- C5 (conflict in a direct-mapped cache). For `s = 0`, `E = 1`, `b = 0` the
addresses `2 ^ 32 + 5` and `5` have the same set index and different tags, yet
the access to `5` after the access to `2 ^ 32 + 5` is a hit: `hits` grows by 1,
`misses` and `evictions` stay. -/
theorem handle_mem_trace_conflict_hit :
    set_idx_of (init_state 0 1 0).c 4294967301 = set_idx_of (init_state 0 1 0).c 5 ∧
    4294967301 >>> (0 + 0) ≠ 5 >>> (0 + 0) ∧
    tag_of (init_state 0 1 0).c 4294967301 ≠ tag_of (init_state 0 1 0).c 5 ∧
    (handle_mem_trace (handle_mem_trace (init_state 0 1 0) 'L' 4294967301) 'L' 5).hits
      = (handle_mem_trace (init_state 0 1 0) 'L' 4294967301).hits + 1 ∧
    (handle_mem_trace (handle_mem_trace (init_state 0 1 0) 'L' 4294967301) 'L' 5).misses
      = (handle_mem_trace (init_state 0 1 0) 'L' 4294967301).misses ∧
    (handle_mem_trace (handle_mem_trace (init_state 0 1 0) 'L' 4294967301) 'L' 5).evictions
      = (handle_mem_trace (init_state 0 1 0) 'L' 4294967301).evictions := by
  decide

/-- C7 (miss with an empty line, `j = 0`). On a fresh cache of one set of two
lines no line is valid and line 0 is the first empty line; the access to
address 1 adds 1 to `misses` and also to `evictions`, and line 1 keeps age 0
instead of getting age 1. -/
theorem handle_mem_trace_insert_at_zero :
    (line_at (init_state 0 2 0).c (set_idx_of (init_state 0 2 0).c 1) 0).valid = 0 ∧
    (line_at (init_state 0 2 0).c (set_idx_of (init_state 0 2 0).c 1) 1).valid = 0 ∧
    (handle_mem_trace (init_state 0 2 0) 'L' 1).hits = (init_state 0 2 0).hits ∧
    (handle_mem_trace (init_state 0 2 0) 'L' 1).misses = (init_state 0 2 0).misses + 1 ∧
    (handle_mem_trace (init_state 0 2 0) 'L' 1).evictions =
      (init_state 0 2 0).evictions + 1 ∧
    set_lines (handle_mem_trace (init_state 0 2 0) 'L' 1).c 0 =
      [{ valid := 1, tag := 1, LRU_age := 0 }, { valid := 0, tag := 0, LRU_age := 0 }] := by
  decide

/-- C9 (ages after an eviction). In the state after the accesses 1 and 2 (one
set of two lines, both valid, ages 1 and 0) the access to address 3 misses and
evicts: `misses` and `evictions` grow by 1 and line 0 gets tag 3, but the ages
stay 1 and 0: the victim is not reset to 0 and the other line is not aged. -/
theorem handle_mem_trace_evict_keeps_ages :
    set_lines example_state.c 0 =
      [{ valid := 1, tag := 1, LRU_age := 1 }, { valid := 1, tag := 2, LRU_age := 0 }] ∧
    (handle_mem_trace example_state 'L' 3).misses = example_state.misses + 1 ∧
    (handle_mem_trace example_state 'L' 3).evictions = example_state.evictions + 1 ∧
    set_lines (handle_mem_trace example_state 'L' 3).c 0 =
      [{ valid := 1, tag := 3, LRU_age := 1 }, { valid := 1, tag := 2, LRU_age := 0 }] := by
  decide

/-- The loop of `generate_mask` started on `2 ^ (k + 1) - 2`, as long as the
value stays below `2 ^ 64`. -/
theorem generate_mask_loop_eq (n k : Nat) (h : n + k ≤ 63) :
    generate_mask_loop n (2 ^ (k + 1) - 2) = 2 ^ (n + k + 1) - 2 := by
  induction n generalizing k with
  | zero => simp [generate_mask_loop]
  | succ n ih =>
    unfold generate_mask_loop
    have hstep : (((2 ^ (k + 1) - 2) ||| 1) <<< 1) % 2 ^ 64 = 2 ^ (k + 1 + 1) - 2 := by
      have h1 : 2 ^ (k + 1) - 2 = 2 ^ 1 * (2 ^ k - 1) := by
        have := Nat.one_le_two_pow (n := k)
        rw [pow_succ]
        omega
      have h2 : (2 ^ (k + 1) - 2) ||| 1 = 2 ^ (k + 1) - 1 := by
        rw [h1, ← Nat.mul_add_lt_is_or (by decide) (2 ^ k - 1)]
        have := Nat.one_le_two_pow (n := k)
        rw [pow_succ]
        omega
      rw [h2, Nat.shiftLeft_eq]
      have h3 : 2 ^ (k + 1 + 1) ≤ 2 ^ 64 := Nat.pow_le_pow_right (by decide) (by omega)
      have h4 := Nat.one_le_two_pow (n := k + 1)
      have h5 : (2 ^ (k + 1) - 1) * 2 ^ 1 = 2 ^ (k + 1 + 1) - 2 := by
        rw [pow_succ 2 (k + 1)]
        omega
      rw [h5]
      exact Nat.mod_eq_of_lt (by omega)
    rw [hstep, ih (k + 1) (by omega)]
    congr 2
    omega

/-- The value of `generate_mask(size, bias)` when the mask fits in 64 bits and
`size ≤ 63`: `size` ones above `bias` zeros. -/
theorem generate_mask_eq (size bias : Nat) (h1 : size ≤ 63) (h2 : size + bias ≤ 64) :
    generate_mask (size : Int) (bias : Int) = (2 ^ size - 1) <<< bias := by
  unfold generate_mask
  simp only [Int.toNat_ofNat]
  have h0 := generate_mask_loop_eq size 0 (by omega)
  simp only [Nat.zero_add, Nat.add_zero] at h0
  have h0' : generate_mask_loop size 0 = 2 ^ (size + 1) - 2 := by
    simpa using h0
  rw [h0']
  have h3 : (2 ^ (size + 1) - 2) >>> 1 = 2 ^ size - 1 := by
    rw [Nat.shiftRight_eq_div_pow, pow_succ]
    have := Nat.one_le_two_pow (n := size)
    omega
  rw [h3]
  apply Nat.mod_eq_of_lt
  rw [Nat.shiftLeft_eq]
  have h4 := Nat.one_le_two_pow (n := size)
  have h5 : 2 ^ size * 2 ^ bias ≤ 2 ^ 64 := by
    rw [← pow_add]
    exact Nat.pow_le_pow_right (by decide) h2
  have h6 := Nat.one_le_two_pow (n := bias)
  calc (2 ^ size - 1) * 2 ^ bias < 2 ^ size * 2 ^ bias := by
        apply Nat.mul_lt_mul_of_pos_right (by omega) (by omega)
    _ ≤ 2 ^ 64 := h5

/-- The set mask `init_cache(s, E, b)` stores. -/
theorem init_cache_set_mask (s b : Nat) (E : Int) (h : s + b < 64) :
    (init_cache s E b).set_mask = (2 ^ s - 1) <<< b := by
  unfold init_cache
  simp only []
  exact generate_mask_eq s b (by omega) (by omega)

/-- The tag mask `init_cache(s, E, b)` stores when `s + b ≥ 1`. -/
theorem init_cache_tag_mask (s b : Nat) (E : Int) (h0 : 1 ≤ s + b) (h : s + b < 64) :
    (init_cache s E b).tag_mask = (2 ^ (64 - (s + b)) - 1) <<< (s + b) := by
  unfold init_cache
  simp only []
  have e1 : (64 : Int) - (s : Int) - (b : Int) = ((64 - (s + b) : Nat) : Int) := by omega
  have e2 : (s : Int) + (b : Int) = ((s + b : Nat) : Int) := by omega
  rw [e1, e2]
  exact generate_mask_eq (64 - (s + b)) (s + b) (by omega) (by omega)

/-- The set index of an address on a cache built by `init_cache(s, E, b)`,
`s + b < 64`: the `s` bits of the address above the `b` offset bits. -/
theorem set_idx_of_init_cache_eq (s b : Nat) (E : Int) (addr : Nat) (h : s + b < 64) :
    set_idx_of (init_cache s E b) addr = (addr >>> b) &&& (2 ^ s - 1) := by
  unfold set_idx_of
  rw [init_cache_set_mask s b E h]
  have hb : (init_cache (s : Int) E (b : Int)).block_offset.toNat = b := by
    simp [init_cache]
  rw [hb]
  apply Nat.eq_of_testBit_eq
  intro i
  simp [Bool.and_comm]

/-- C12 (set-index decoding). For `s + b < 64` the set index
`(addr & set_mask) >> b` that `handle_mem_trace` computes on a cache built by
`init_cache(s, E, b)` is `(addr >> b) & (2 ^ s - 1)`. -/
theorem set_idx_of_init_cache (s b : Nat) (E : Int) (addr : Nat) (h : s + b < 64) :
    set_idx_of (init_cache s E b) addr = (addr >>> b) &&& (2 ^ s - 1) :=
  set_idx_of_init_cache_eq s b E addr h

/-- Set-index decoding for `s = 2`, `b = 3` at the address `0x7d`. -/
theorem set_idx_of_init_cache_witness :
    set_idx_of (init_cache (2 : Nat) 1 (3 : Nat)) 125 = (125 >>> 3) &&& (2 ^ 2 - 1) :=
  set_idx_of_init_cache 2 3 1 125 (by decide)

/-- C13, as stated (the tag is `address >> (s + b)`), fails: for `s = 2`, `b = 3`
and the address `0x29` the tag `handle_mem_trace` computes is `0x20`, not 1. -/
theorem tag_of_not_shifted :
    tag_of (init_cache 2 1 3) 41 = 32 ∧ 41 >>> (2 + 3) = 1 ∧
    tag_of (init_cache 2 1 3) 41 ≠ 41 >>> (2 + 3) := by
  decide

/-- C13, amended. For `1 ≤ s + b < 64` and a 64-bit address the tag
`handle_mem_trace` computes on a cache built by `init_cache(s, E, b)` is the
address with its low `s + b` bits cleared, `(address >> (s + b)) << (s + b)`;
shifted right by `s + b` it is `address >> (s + b)`. -/
theorem tag_of_init_cache (s b : Nat) (E : Int) (addr : Nat) (h0 : 1 ≤ s + b)
    (h : s + b < 64) (haddr : addr < 2 ^ 64) :
    tag_of (init_cache s E b) addr = (addr >>> (s + b)) <<< (s + b) ∧
    tag_of (init_cache s E b) addr >>> (s + b) = addr >>> (s + b) := by
  have key : tag_of (init_cache s E b) addr = (addr >>> (s + b)) <<< (s + b) := by
    unfold tag_of
    rw [init_cache_tag_mask s b E h0 h]
    apply Nat.eq_of_testBit_eq
    intro i
    simp only [Nat.testBit_and, Nat.testBit_shiftLeft, Nat.testBit_shiftRight,
      Nat.testBit_two_pow_sub_one]
    by_cases hi : s + b ≤ i
    · have e : s + b + (i - (s + b)) = i := by omega
      rw [e]
      by_cases hi2 : i < 64
      · have : i - (s + b) < 64 - (s + b) := by omega
        simp [hi, this]
      · have hlt : addr < 2 ^ i :=
          Nat.lt_of_lt_of_le haddr (Nat.pow_le_pow_right (by decide) (by omega))
        simp [Nat.testBit_lt_two_pow hlt]
    · simp [hi]
  refine ⟨key, ?_⟩
  rw [key]
  apply Nat.eq_of_testBit_eq
  intro i
  simp

/-- The amended tag decoding for `s = 2`, `b = 3` at the address `0x29`. -/
theorem tag_of_init_cache_witness :
    tag_of (init_cache (2 : Nat) 1 (3 : Nat)) 41 = (41 >>> (2 + 3)) <<< (2 + 3) ∧
    tag_of (init_cache (2 : Nat) 1 (3 : Nat)) 41 >>> (2 + 3) = 41 >>> (2 + 3) :=
  tag_of_init_cache 2 3 1 41 (by decide) (by decide) (by decide)

/-- C14, as stated (set index 5), fails: for `s = 2`, `b = 3` the address
`0x29` has the set index 1. -/
theorem set_idx_of_example_not_five :
    set_idx_of (init_cache 2 1 3) 41 ≠ 5 := by
  decide

/-- C14, amended. For `s = 2`, `b = 3` and the address `0x29` the decoding of
`handle_mem_trace` on a cache built by `init_cache(2, E, 3)` yields the set
index 1 (the two set bits are `01`) and the tag `0x20`, the remaining
high-order bits of the address left in place. -/
theorem set_idx_of_example (E : Int) :
    set_idx_of (init_cache 2 E 3) 41 = 1 ∧ tag_of (init_cache 2 E 3) 41 = 32 := by
  have h1 : (init_cache 2 E 3).set_mask = (init_cache 2 1 3).set_mask := rfl
  have h2 : (init_cache 2 E 3).tag_mask = (init_cache 2 1 3).tag_mask := rfl
  have h3 : (init_cache 2 E 3).block_offset = (init_cache 2 1 3).block_offset := rfl
  unfold set_idx_of tag_of
  rw [h1, h2, h3]
  decide

/-- C20 (mask layout) at `s = 0`, `b = 0`: `init_cache` stores the tag mask
`2 ^ 63 - 1`, not `2 ^ 64 - 2 ^ 0`: bit 63 belongs to no mask, and the
addresses 0 and `2 ^ 63` get the same tag. -/
theorem init_cache_tag_mask_zero (E : Int) :
    (init_cache 0 E 0).tag_mask = 2 ^ 63 - 1 ∧
    (init_cache 0 E 0).tag_mask ≠ 2 ^ 64 - 2 ^ (0 + 0) ∧
    (init_cache 0 E 0).set_mask = (2 ^ 0 - 1) * 2 ^ 0 ∧
    tag_of (init_cache 0 E 0) (2 ^ 63) = tag_of (init_cache 0 E 0) 0 := by
  have h2 : (init_cache 0 E 0).tag_mask = (init_cache 0 1 0).tag_mask := rfl
  have h1 : (init_cache 0 E 0).set_mask = (init_cache 0 1 0).set_mask := rfl
  unfold tag_of
  rw [h1, h2]
  decide

/-- The set index depends on the address through `addr >> block_offset` only. -/
theorem set_idx_of_eq_of_shift (c : cache) (a1 a2 : Nat)
    (h : a1 >>> c.block_offset.toNat = a2 >>> c.block_offset.toNat) :
    set_idx_of c a1 = set_idx_of c a2 := by
  have key : ∀ a, set_idx_of c a =
      (a >>> c.block_offset.toNat) &&& (c.set_mask >>> c.block_offset.toNat) := by
    intro a
    unfold set_idx_of
    apply Nat.eq_of_testBit_eq
    intro i
    simp
  rw [key a1, key a2, h]

/-- C15 (block-offset independence). On a cache that has the tag mask and the
block-offset width of `init_cache(s, E, b)`, two addresses with the same
`addr >> b` get the same tag and the same set index, and `handle_mem_trace`
ends in the same state, counters included, for both. -/
theorem handle_mem_trace_block_offset (s b : Nat) (E : Int) (st : state) (oper : Char)
    (a1 a2 : Nat) (_hsb : s + b < 64)
    (htm : st.c.tag_mask = (init_cache s E b).tag_mask)
    (hbo : st.c.block_offset = (init_cache s E b).block_offset)
    (h : a1 >>> b = a2 >>> b) :
    tag_of st.c a1 = tag_of st.c a2 ∧ set_idx_of st.c a1 = set_idx_of st.c a2 ∧
    handle_mem_trace st oper a1 = handle_mem_trace st oper a2 := by
  have hb : st.c.block_offset.toNat = b := by
    rw [hbo]
    simp [init_cache]
  have hset : set_idx_of st.c a1 = set_idx_of st.c a2 :=
    set_idx_of_eq_of_shift st.c a1 a2 (by rw [hb]; exact h)
  have hbit : ∀ i, b ≤ i → a1.testBit i = a2.testBit i := by
    intro i hi
    have := congrArg (fun x => x.testBit (i - b)) h
    simp only [Nat.testBit_shiftRight] at this
    have e : b + (i - b) = i := by omega
    rw [e] at this
    exact this
  have htag : tag_of st.c a1 = tag_of st.c a2 := by
    unfold tag_of
    rw [htm]
    have hm : (init_cache s E b).tag_mask
        = generate_mask ((64 : Int) - s - b) ((s : Int) + b) := rfl
    rw [hm]
    unfold generate_mask
    have e2 : ((s : Int) + (b : Int)).toNat = s + b := by omega
    rw [e2]
    apply Nat.eq_of_testBit_eq
    intro i
    simp only [Nat.testBit_and, Nat.testBit_mod_two_pow, Nat.testBit_shiftLeft]
    by_cases hi : s + b ≤ i
    · rw [hbit i (by omega)]
    · simp [hi]
  refine ⟨htag, hset, ?_⟩
  unfold handle_mem_trace
  simp only [htag, hset]

/-- Block-offset independence for `s = 1`, `b = 2` on a fresh cache: the
addresses `0x14` and `0x17` share their block. -/
theorem handle_mem_trace_block_offset_witness :
    tag_of (init_state (1 : Nat) 2 (2 : Nat)).c 20 =
      tag_of (init_state (1 : Nat) 2 (2 : Nat)).c 23 ∧
    set_idx_of (init_state (1 : Nat) 2 (2 : Nat)).c 20 =
      set_idx_of (init_state (1 : Nat) 2 (2 : Nat)).c 23 ∧
    handle_mem_trace (init_state (1 : Nat) 2 (2 : Nat)) 'L' 20 =
      handle_mem_trace (init_state (1 : Nat) 2 (2 : Nat)) 'L' 23 :=
  handle_mem_trace_block_offset 1 2 2 (init_state (1 : Nat) 2 (2 : Nat)) 'L' 20 23
    (by decide) rfl rfl (by decide)

/-- The two ways the loop of `is_hit` ends: on the first line of the scanned
range that is valid and holds the tag, or past the range with no such line. -/
theorem is_hit_loop_cases (c : cache) (tag s : Nat) (n j : Nat) :
    (∃ i, j ≤ i ∧ i < j + n ∧
        ((line_at c s i).valid = 1 ∧ (line_at c s i).tag = tag) ∧
        (∀ k, j ≤ k → k < i → ¬ ((line_at c s k).valid = 1 ∧ (line_at c s k).tag = tag)) ∧
        is_hit_loop c tag s n j = (1, update_LRU c s i)) ∨
    ((∀ k, j ≤ k → k < j + n → ¬ ((line_at c s k).valid = 1 ∧ (line_at c s k).tag = tag)) ∧
      is_hit_loop c tag s n j = (0, c)) := by
  induction n generalizing j with
  | zero =>
    right
    exact ⟨fun k hk hkn => by omega, rfl⟩
  | succ n ih =>
    by_cases hm : (line_at c s j).valid = 1 ∧ (line_at c s j).tag = tag
    · left
      refine ⟨j, Nat.le_refl j, by omega, hm, fun k hk hkj => by omega, ?_⟩
      unfold is_hit_loop
      rw [if_pos hm]
    · rcases ih (j + 1) with ⟨i, h1, h2, h3, h4, h5⟩ | ⟨h1, h2⟩
      · left
        refine ⟨i, by omega, by omega, h3, ?_, ?_⟩
        · intro k hk hki
          by_cases hkj : k = j
          · rw [hkj]; exact hm
          · exact h4 k (by omega) hki
        · unfold is_hit_loop
          rw [if_neg hm]
          exact h5
      · right
        refine ⟨?_, ?_⟩
        · intro k hk hkn
          by_cases hkj : k = j
          · rw [hkj]; exact hm
          · exact h1 k (by omega) (by omega)
        · unfold is_hit_loop
          rw [if_neg hm]
          exact h2

/-- The two ways the loop of `find_empty_line` ends: on the first line of the
scanned range with `valid == 0`, or with 0 when the range has no such line. -/
theorem find_empty_line_loop_cases (c : cache) (s : Nat) (n j : Nat) :
    (j ≤ find_empty_line_loop c s n j ∧ find_empty_line_loop c s n j < j + n ∧
      (line_at c s (find_empty_line_loop c s n j)).valid = 0 ∧
      (∀ k, j ≤ k → k < find_empty_line_loop c s n j → (line_at c s k).valid ≠ 0)) ∨
    (find_empty_line_loop c s n j = 0 ∧
      ∀ k, j ≤ k → k < j + n → (line_at c s k).valid ≠ 0) := by
  induction n generalizing j with
  | zero =>
    right
    exact ⟨rfl, fun k hk hkn => by omega⟩
  | succ n ih =>
    unfold find_empty_line_loop
    by_cases hv : (line_at c s j).valid = 0
    · left
      rw [if_pos hv]
      exact ⟨Nat.le_refl j, by omega, hv, fun k hk hkj => by omega⟩
    · rw [if_neg hv]
      rcases ih (j + 1) with ⟨h1, h2, h3, h4⟩ | ⟨h1, h2⟩
      · left
        refine ⟨by omega, by omega, h3, ?_⟩
        intro k hk hkr
        by_cases hkj : k = j
        · rw [hkj]; exact hv
        · exact h4 k (by omega) hkr
      · right
        refine ⟨h1, ?_⟩
        intro k hk hkn
        by_cases hkj : k = j
        · rw [hkj]; exact hv
        · exact h2 k (by omega) (by omega)

/-- With at least one line, the index `find_empty_line` returns is a line of
the set. -/
theorem find_empty_line_lt (c : cache) (s : Nat) (hE : 1 ≤ c.E) :
    find_empty_line c s < c.E.toNat := by
  unfold find_empty_line
  rcases find_empty_line_loop_cases c s c.E.toNat 0 with ⟨_, h2, _, _⟩ | ⟨h1, _⟩
  · omega
  · rw [h1]; omega

/-- With at least one line, the index `evict_line` writes to is a line of the
set. -/
theorem evict_line_idx_lt (c : cache) (s : Nat) (hE : 1 ≤ c.E) :
    evict_line_idx c s < c.E.toNat := by
  unfold evict_line_idx
  rcases evict_line_loop_spec c s c.E.toNat 0 0 (-1) with ⟨h1, _⟩ | ⟨_, h2, _, _, _⟩
  · rw [h1]; omega
  · omega

/-- The three courses of one call of `handle_mem_trace`: a hit in line `i`, a miss
that `evict_line` serves, and a miss that `update_cache` serves in line `j ≠ 0`. -/
theorem handle_mem_trace_cases (st : state) (oper : Char) (addr : Nat) :
    (∃ i, i < st.c.E.toNat ∧
      ((line_at st.c (set_idx_of st.c addr) i).valid = 1 ∧
        (line_at st.c (set_idx_of st.c addr) i).tag = tag_of st.c addr) ∧
      handle_mem_trace st oper addr =
        { st with hits := st.hits + 1, c := update_LRU st.c (set_idx_of st.c addr) i }) ∨
    ((∀ k, k < st.c.E.toNat → ¬ ((line_at st.c (set_idx_of st.c addr) k).valid = 1 ∧
        (line_at st.c (set_idx_of st.c addr) k).tag = tag_of st.c addr)) ∧
      find_empty_line st.c (set_idx_of st.c addr) = 0 ∧
      handle_mem_trace st oper addr =
        { st with misses := st.misses + 1, evictions := st.evictions + 1,
                  c := evict_line st.c (tag_of st.c addr) (set_idx_of st.c addr) }) ∨
    ((∀ k, k < st.c.E.toNat → ¬ ((line_at st.c (set_idx_of st.c addr) k).valid = 1 ∧
        (line_at st.c (set_idx_of st.c addr) k).tag = tag_of st.c addr)) ∧
      find_empty_line st.c (set_idx_of st.c addr) ≠ 0 ∧
      handle_mem_trace st oper addr =
        { st with misses := st.misses + 1,
                  c := update_cache st.c (tag_of st.c addr) (set_idx_of st.c addr)
                    (find_empty_line st.c (set_idx_of st.c addr)) }) := by
  rcases is_hit_loop_cases st.c (tag_of st.c addr) (set_idx_of st.c addr) st.c.E.toNat 0
    with ⟨i, _, h2, h3, h4, _⟩ | ⟨h1, h2⟩
  · left
    exact ⟨i, by omega, h3,
      handle_mem_trace_of_hit st oper addr i (by omega) h3 (fun k hk => h4 k (Nat.zero_le k) hk)⟩
  · right
    have hno : ∀ k, k < st.c.E.toNat →
        ¬ ((line_at st.c (set_idx_of st.c addr) k).valid = 1 ∧
          (line_at st.c (set_idx_of st.c addr) k).tag = tag_of st.c addr) :=
      fun k hk => h1 k (Nat.zero_le k) (by omega)
    by_cases he : find_empty_line st.c (set_idx_of st.c addr) = 0
    · left
      refine ⟨hno, he, ?_⟩
      unfold handle_mem_trace is_hit
      simp only [h2]
      simp [he]
    · right
      refine ⟨hno, he, ?_⟩
      unfold handle_mem_trace is_hit
      simp only [h2]
      simp [he]

theorem same_shape_evict_line (c : cache) (tag s : Nat) : same_shape c (evict_line c tag s) := by
  unfold evict_line
  exact same_shape_store_line c s _ _

theorem same_shape_update_cache (c : cache) (tag s j : Nat) :
    same_shape c (update_cache c tag s j) := by
  unfold update_cache
  exact same_shape_trans (same_shape_trans (same_shape_store_line c s j _)
    (same_shape_update_LRU _ s j)) (same_shape_store_line _ s j _)

theorem same_shape_handle_mem_trace (st : state) (oper : Char) (addr : Nat) :
    same_shape st.c (handle_mem_trace st oper addr).c := by
  rcases handle_mem_trace_cases st oper addr with ⟨i, _, _, h⟩ | ⟨_, _, h⟩ | ⟨_, _, h⟩
  · rw [h]; exact same_shape_update_LRU _ _ _
  · rw [h]; exact same_shape_evict_line _ _ _
  · rw [h]; exact same_shape_update_cache _ _ _ _

theorem same_shape_replay (st : state) (trace : List (Char × Nat)) :
    same_shape st.c (replay st trace).c := by
  induction trace generalizing st with
  | nil => exact same_shape_refl st.c
  | cons r rs ih =>
    exact same_shape_trans (same_shape_handle_mem_trace st r.1 r.2) (ih _)

/-- Every line of the cache `init_cache` builds is `valid = 0`, `tag = 0`,
`LRU_age = 0`; so is a line read outside the arrays of the model. -/
theorem line_at_init_cache (s E b : Int) (s' k : Nat) :
    line_at (init_cache s E b) s' k = { valid := 0, tag := 0, LRU_age := 0 } := by
  have hd : (default : cache_line) = { valid := 0, tag := 0, LRU_age := 0 } := rfl
  have hs : (default : cache_set).lines = [] := rfl
  unfold line_at init_cache
  simp only [List.getD_eq_getElem?_getD, List.getElem?_replicate]
  by_cases h1 : s' < (shl_one_int s).toNat
  · by_cases h2 : k < E.toNat
    · simp [h1, h2]
    · simp [h1, h2, List.getElem?_replicate, hd]
  · simp [h1, hs, hd]

/-- Every set of the cache `init_cache` builds has `E` lines. -/
theorem set_ok_init_cache (s E b : Int) (s' : Nat)
    (h : s' < (init_cache s E b).sets.length) : set_ok (init_cache s E b) s' := by
  refine ⟨h, ?_⟩
  have h' : s' < (shl_one_int s).toNat := by simpa [init_cache] using h
  unfold set_lines init_cache
  simp [h']

/-- For `0 ≤ s ≤ 30` the `int` expression `1 << s` is `2 ^ s`. -/
theorem shl_one_int_eq (s : Nat) (hs : s ≤ 30) : shl_one_int s = 2 ^ s := by
  unfold shl_one_int
  have e : ((s : Int) % 32).toNat = s := by omega
  rw [e]
  have h1 : (2 : Int) ^ s ≤ 2 ^ 30 := by
    exact_mod_cast Nat.pow_le_pow_right (by decide : 0 < 2) hs
  have h2 : (0 : Int) < 2 ^ s := by positivity
  exact wrap_int_of_range _ (by omega) (by omega)

/-- For `0 ≤ s ≤ 30` the cache `init_cache` builds has `2 ^ s` sets. -/
theorem init_cache_sets_length (s : Nat) (E b : Int) (hs : s ≤ 30) :
    (init_cache s E b).sets.length = 2 ^ s := by
  unfold init_cache
  simp only [List.length_replicate]
  rw [shl_one_int_eq s hs]
  exact_mod_cast Int.toNat_ofNat (2 ^ s)

theorem update_LRU_loop_checked_eq (s n i : Nat) (c : cache) (hs : s < c.sets.length)
    (hn : i + n ≤ (set_lines c s).length) :
    update_LRU_loop_checked s n i c = some (update_LRU_loop s n i c) := by
  induction n generalizing i c with
  | zero => rfl
  | succ n ih =>
    unfold update_LRU_loop_checked update_LRU_loop
    have hin : in_range c s i := ⟨hs, by omega⟩
    rw [if_pos hin]
    have hsh := same_shape_store_line c s i
      { line_at c s i with LRU_age := wrap_int ((line_at c s i).LRU_age + 1) }
    exact ih (i + 1) _ (by rw [hsh.2.2.2.2.1]; exact hs) (by rw [hsh.2.2.2.2.2 s]; omega)

theorem update_LRU_checked_eq (c : cache) (s i : Nat) (hok : set_ok c s)
    (hi : i < c.E.toNat) : update_LRU_checked c s i = some (update_LRU c s i) := by
  unfold update_LRU_checked update_LRU
  rw [update_LRU_loop_checked_eq s _ 0 c hok.1 (by rw [hok.2]; omega)]
  have hsh := same_shape_update_LRU_loop s c.E.toNat 0 c
  have hin : in_range (update_LRU_loop s c.E.toNat 0 c) s i :=
    ⟨by rw [hsh.2.2.2.2.1]; exact hok.1, by rw [hsh.2.2.2.2.2 s, hok.2]; exact hi⟩
  simp only [if_pos hin]

theorem is_hit_loop_checked_eq (c : cache) (tag s : Nat) (n j : Nat) (hok : set_ok c s)
    (hn : j + n ≤ c.E.toNat) :
    is_hit_loop_checked c tag s n j = some (is_hit_loop c tag s n j) := by
  induction n generalizing j with
  | zero => rfl
  | succ n ih =>
    unfold is_hit_loop_checked is_hit_loop
    have hin : in_range c s j := ⟨hok.1, by rw [hok.2]; omega⟩
    rw [if_pos hin]
    split
    · rw [update_LRU_checked_eq c s j hok (by omega)]
    · exact ih (j + 1) (by omega)

theorem find_empty_line_loop_checked_eq (c : cache) (s : Nat) (n j : Nat) (hok : set_ok c s)
    (hn : j + n ≤ c.E.toNat) :
    find_empty_line_loop_checked c s n j = some (find_empty_line_loop c s n j) := by
  induction n generalizing j with
  | zero => rfl
  | succ n ih =>
    unfold find_empty_line_loop_checked find_empty_line_loop
    have hin : in_range c s j := ⟨hok.1, by rw [hok.2]; omega⟩
    rw [if_pos hin]
    split
    · rfl
    · exact ih (j + 1) (by omega)

theorem evict_line_loop_checked_eq (c : cache) (s : Nat) (n j idx : Nat) (m : Int)
    (hok : set_ok c s) (hn : j + n ≤ c.E.toNat) :
    evict_line_loop_checked c s n j idx m = some (evict_line_loop c s n j idx m) := by
  induction n generalizing j idx m with
  | zero => rfl
  | succ n ih =>
    unfold evict_line_loop_checked evict_line_loop
    have hin : in_range c s j := ⟨hok.1, by rw [hok.2]; omega⟩
    rw [if_pos hin]
    split
    · exact ih (j + 1) _ _ (by omega)
    · exact ih (j + 1) _ _ (by omega)

theorem evict_line_checked_eq (c : cache) (tag s : Nat) (hok : set_ok c s) (hE : 1 ≤ c.E) :
    evict_line_checked c tag s = some (evict_line c tag s) := by
  unfold evict_line_checked evict_line
  rw [evict_line_loop_checked_eq c s _ 0 0 (-1) hok (by omega)]
  have hin : in_range c s (evict_line_idx c s) :=
    ⟨hok.1, by rw [hok.2]; exact evict_line_idx_lt c s hE⟩
  unfold evict_line_idx at hin ⊢
  simp only [if_pos hin]

theorem update_cache_checked_eq (c : cache) (tag s j : Nat) (hok : set_ok c s)
    (hj : j < c.E.toNat) :
    update_cache_checked c tag s j = some (update_cache c tag s j) := by
  unfold update_cache_checked update_cache
  have hin : in_range c s j := ⟨hok.1, by rw [hok.2]; exact hj⟩
  rw [if_pos hin]
  have hsh := same_shape_store_line c s j { line_at c s j with tag := tag % 2 ^ 32 }
  rw [update_LRU_checked_eq _ s j ((same_shape_set_ok hsh s).2 hok) hj]

theorem same_shape_is_hit_loop (c : cache) (tag s n j : Nat) :
    same_shape c (is_hit_loop c tag s n j).2 := by
  rcases is_hit_loop_cases c tag s n j with ⟨i, _, _, _, _, h⟩ | ⟨_, h⟩
  · rw [h]; exact same_shape_update_LRU c s i
  · rw [h]; exact same_shape_refl c

/-- In a state whose addressed set exists and has `E ≥ 1` lines, the checked
run of `handle_mem_trace` finds every access inside the arrays and ends in
the state the function computes. -/
theorem handle_mem_trace_checked_eq (st : state) (oper : Char) (addr : Nat)
    (hE : 1 ≤ st.c.E) (hok : set_ok st.c (set_idx_of st.c addr)) :
    handle_mem_trace_checked st oper addr = some (handle_mem_trace st oper addr) := by
  have hsh := same_shape_is_hit_loop st.c (tag_of st.c addr) (set_idx_of st.c addr)
    st.c.E.toNat 0
  have hok2 := (same_shape_set_ok hsh (set_idx_of st.c addr)).2 hok
  have hE2 : 1 ≤ (is_hit_loop st.c (tag_of st.c addr) (set_idx_of st.c addr)
      st.c.E.toNat 0).2.E := by rw [hsh.1]; exact hE
  unfold handle_mem_trace_checked handle_mem_trace is_hit find_empty_line
  rw [is_hit_loop_checked_eq st.c _ _ _ 0 hok (by omega)]
  dsimp only
  split
  · rfl
  · rw [find_empty_line_loop_checked_eq _ _ _ 0 hok2 (by omega)]
    dsimp only
    split
    · rw [evict_line_checked_eq _ _ _ hok2 hE2]
    · have hj := find_empty_line_lt _ (set_idx_of st.c addr) hE2
      unfold find_empty_line at hj
      rw [update_cache_checked_eq _ _ _ _ hok2 hj]

/-- On a cache with the shape of `init_cache(s, E, b)`, `s ≤ 30` and
`s + b < 64`, the set an address maps to exists and has `E` lines. -/
theorem set_ok_set_idx_of (s b : Nat) (E : Int) (c : cache) (addr : Nat) (hs : s ≤ 30)
    (hsb : s + b < 64) (hsh : same_shape (init_cache s E b) c) :
    set_idx_of c addr < 2 ^ s ∧ set_ok c (set_idx_of c addr) := by
  have hidx : set_idx_of c addr < 2 ^ s := by
    rw [set_idx_of_same_shape hsh, set_idx_of_init_cache_eq s b E addr hsb]
    have h1 : (addr >>> b) &&& (2 ^ s - 1) ≤ 2 ^ s - 1 := Nat.and_le_right
    have h2 := Nat.one_le_two_pow (n := s)
    omega
  exact ⟨hidx, (same_shape_set_ok hsh _).2
    (set_ok_init_cache s E b _ (by rw [init_cache_sets_length s E b hs]; exact hidx))⟩

/-- C16, as stated (for every `s` with `s + b < 64`), fails at `s = 31`: the
`int` expression `1 << 31` is `-2 ^ 31`, `init_cache(31, 1, 0)` builds no set,
and the first access, to address 0 with the set index 0, reads outside the
array of sets. -/
theorem handle_mem_trace_out_of_range :
    (init_cache 31 1 0).S = -2147483648 ∧
    (init_cache 31 1 0).sets.length = 0 ∧
    set_idx_of (init_state 31 1 0).c 0 = 0 ∧
    ¬ set_idx_of (init_state 31 1 0).c 0 < (init_state 31 1 0).c.sets.length ∧
    handle_mem_trace_checked (init_state 31 1 0) 'L' 0 = none := by
  decide

/-- C16, amended (in-bounds indexing, `s ≤ 30`). In every state reached from
`init_cache(s, E, b)` with `s ≤ 30`, `s + b < 64` and `E ≥ 1`, and for every
address: the cache has `2 ^ s` sets and the addressed set `E` lines; the set
index is below `2 ^ s`; the line indices that depend on the data (the result of
`find_empty_line` and the line `evict_line` writes) are below `E`; and the run
of `handle_mem_trace` with every access to the arrays checked finds all of them
inside and ends in the state the function computes. -/
theorem handle_mem_trace_in_bounds (s b : Nat) (E : Int) (trace : List (Char × Nat))
    (oper : Char) (addr : Nat) (hs : s ≤ 30) (hsb : s + b < 64) (hE : 1 ≤ E) :
    set_idx_of (replay (init_state s E b) trace).c addr < 2 ^ s ∧
    (replay (init_state s E b) trace).c.sets.length = 2 ^ s ∧
    (set_lines (replay (init_state s E b) trace).c
      (set_idx_of (replay (init_state s E b) trace).c addr)).length = E.toNat ∧
    (replay (init_state s E b) trace).c.E = E ∧
    find_empty_line (replay (init_state s E b) trace).c
      (set_idx_of (replay (init_state s E b) trace).c addr) < E.toNat ∧
    evict_line_idx (replay (init_state s E b) trace).c
      (set_idx_of (replay (init_state s E b) trace).c addr) < E.toNat ∧
    handle_mem_trace_checked (replay (init_state s E b) trace) oper addr =
      some (handle_mem_trace (replay (init_state s E b) trace) oper addr) := by
  have hsh : same_shape (init_cache s E b) (replay (init_state s E b) trace).c :=
    same_shape_replay (init_state s E b) trace
  have hEq : (replay (init_state s E b) trace).c.E = E := hsh.1
  have hE' : 1 ≤ (replay (init_state s E b) trace).c.E := by rw [hEq]; exact hE
  obtain ⟨hidx, hok⟩ := set_ok_set_idx_of s b E _ addr hs hsb hsh
  refine ⟨hidx, by rw [hsh.2.2.2.2.1, init_cache_sets_length s E b hs],
    by rw [hok.2, hEq], hEq, ?_, ?_, handle_mem_trace_checked_eq _ oper addr hE' hok⟩
  · have := find_empty_line_lt (replay (init_state s E b) trace).c
      (set_idx_of (replay (init_state s E b) trace).c addr) hE'
    rw [hEq] at this
    exact this
  · have := evict_line_idx_lt (replay (init_state s E b) trace).c
      (set_idx_of (replay (init_state s E b) trace).c addr) hE'
    rw [hEq] at this
    exact this

/-- In-bounds indexing after the trace 0x14, 0x3c for `s = 1`, `E = 2`, `b = 2`,
at the address `0x17`. -/
theorem handle_mem_trace_in_bounds_witness :
    set_idx_of (replay (init_state (1 : Nat) 2 (2 : Nat)) [('L', 20), ('S', 60)]).c 23
      < 2 ^ 1 ∧
    handle_mem_trace_checked (replay (init_state (1 : Nat) 2 (2 : Nat))
        [('L', 20), ('S', 60)]) 'M' 23 =
      some (handle_mem_trace (replay (init_state (1 : Nat) 2 (2 : Nat))
        [('L', 20), ('S', 60)]) 'M' 23) :=
  have h := handle_mem_trace_in_bounds 1 2 2 [('L', 20), ('S', 60)] 'M' 23 (by decide)
    (by decide) (by decide)
  ⟨h.1, h.2.2.2.2.2.2⟩

/-- The loop of `update_LRU` writes ages only. -/
theorem line_at_update_LRU_loop_fields (s n i : Nat) (c : cache) (s' k : Nat) :
    (line_at (update_LRU_loop s n i c) s' k).valid = (line_at c s' k).valid ∧
    (line_at (update_LRU_loop s n i c) s' k).tag = (line_at c s' k).tag := by
  induction n generalizing i c with
  | zero => exact ⟨rfl, rfl⟩
  | succ n ih =>
    unfold update_LRU_loop
    obtain ⟨h1, h2⟩ := ih (i + 1) (store_line c s i
      { line_at c s i with LRU_age := wrap_int ((line_at c s i).LRU_age + 1) })
    rw [h1, h2, line_at_store_line]
    split
    · rename_i h
      rw [h.1, h.2.1]
      exact ⟨rfl, rfl⟩
    · exact ⟨rfl, rfl⟩

/-- The function `update_LRU` writes ages only. -/
theorem line_at_update_LRU_fields (c : cache) (s i : Nat) (s' k : Nat) :
    (line_at (update_LRU c s i) s' k).valid = (line_at c s' k).valid ∧
    (line_at (update_LRU c s i) s' k).tag = (line_at c s' k).tag := by
  unfold update_LRU
  simp only []
  rw [line_at_store_line]
  obtain ⟨h1, h2⟩ := line_at_update_LRU_loop_fields s c.E.toNat 0 c s' k
  split
  · rename_i h
    obtain ⟨h3, h4⟩ := line_at_update_LRU_loop_fields s c.E.toNat 0 c s i
    rw [h.1, h.2.1]
    exact ⟨h3, h4⟩
  · exact ⟨h1, h2⟩

/-- One call of `handle_mem_trace` changes the valid flag and the tag of at most
one line, a line of the addressed set, which then is valid and holds the low
32 bits of the requested tag. -/
theorem handle_mem_trace_fields (st : state) (oper : Char) (addr : Nat) :
    ∃ k0, ∀ s' k,
      ((line_at (handle_mem_trace st oper addr).c s' k).valid = (line_at st.c s' k).valid ∧
        (line_at (handle_mem_trace st oper addr).c s' k).tag = (line_at st.c s' k).tag) ∨
      (s' = set_idx_of st.c addr ∧ k = k0 ∧
        (line_at (handle_mem_trace st oper addr).c s' k).valid = 1 ∧
        (line_at (handle_mem_trace st oper addr).c s' k).tag = tag_of st.c addr % 2 ^ 32) := by
  rcases handle_mem_trace_cases st oper addr with ⟨i, _, _, h⟩ | ⟨_, _, h⟩ | ⟨_, _, h⟩
  · refine ⟨0, fun s' k => Or.inl ?_⟩
    rw [h]
    exact line_at_update_LRU_fields st.c _ i s' k
  · refine ⟨evict_line_idx st.c (set_idx_of st.c addr), fun s' k => ?_⟩
    rw [h]
    simp only []
    unfold evict_line
    rw [line_at_store_line]
    split
    · rename_i hc
      right
      exact ⟨hc.1, hc.2.1, rfl, rfl⟩
    · left
      exact ⟨rfl, rfl⟩
  · refine ⟨find_empty_line st.c (set_idx_of st.c addr), fun s' k => ?_⟩
    rw [h]
    simp only []
    unfold update_cache
    simp only []
    rw [line_at_store_line, (same_shape_update_LRU _ _ _).2.2.2.2.1,
      (same_shape_update_LRU _ _ _).2.2.2.2.2, store_line_sets_length,
      set_lines_store_line_length]
    by_cases hc : s' = set_idx_of st.c addr ∧
        k = find_empty_line st.c (set_idx_of st.c addr) ∧
        set_idx_of st.c addr < st.c.sets.length ∧
        find_empty_line st.c (set_idx_of st.c addr) <
          (set_lines st.c (set_idx_of st.c addr)).length
    · right
      rw [if_pos hc]
      refine ⟨hc.1, hc.2.1, rfl, ?_⟩
      simp only []
      rw [(line_at_update_LRU_fields _ _ _ _ _).2, line_at_store_line,
        if_pos ⟨rfl, rfl, hc.2.2.1, hc.2.2.2⟩]
    · left
      rw [if_neg hc, (line_at_update_LRU_fields _ _ _ _ _).1,
        (line_at_update_LRU_fields _ _ _ _ _).2, line_at_store_line, if_neg hc]
      exact ⟨rfl, rfl⟩

/-- Two caches of the same shape whose valid flags differ in at most one line,
valid in the second cache, have valid-line counts that differ by at most 1. -/
theorem valid_count_le (c c' : cache) (hsh : same_shape c c') (s0 k0 : Nat)
    (h : ∀ s' k, (line_at c' s' k).valid = (line_at c s' k).valid ∨
      (s' = s0 ∧ k = k0 ∧ (line_at c' s' k).valid = 1)) :
    valid_count c ≤ valid_count c' ∧ valid_count c' ≤ valid_count c + 1 := by
  have e : valid_count c' =
      Finset.sum (Finset.range c.sets.length) fun s =>
        Finset.sum (Finset.range (set_lines c s).length) fun k =>
          if (line_at c' s k).valid = 1 then 1 else 0 := by
    unfold valid_count
    rw [hsh.2.2.2.2.1]
    apply Finset.sum_congr rfl
    intro s _
    rw [hsh.2.2.2.2.2 s]
  rw [e]
  constructor
  · unfold valid_count
    apply Finset.sum_le_sum
    intro s _
    apply Finset.sum_le_sum
    intro k _
    rcases h s k with h1 | ⟨_, _, h1⟩
    · rw [h1]
    · rw [h1]
      split <;> simp
  · have hg : (Finset.sum (Finset.range c.sets.length) fun s =>
        Finset.sum (Finset.range (set_lines c s).length) fun k =>
          if s = s0 ∧ k = k0 then 1 else 0) ≤ 1 := by
      have hin : ∀ s, (Finset.sum (Finset.range (set_lines c s).length) fun k =>
          if s = s0 ∧ k = k0 then 1 else 0) ≤ (if s = s0 then 1 else 0) := by
        intro s
        by_cases hs : s = s0
        · simp only [hs, true_and, if_true]
          rw [Finset.sum_ite_eq']
          split <;> simp
        · simp [hs]
      calc (Finset.sum (Finset.range c.sets.length) fun s =>
            Finset.sum (Finset.range (set_lines c s).length) fun k =>
              if s = s0 ∧ k = k0 then 1 else 0)
          ≤ Finset.sum (Finset.range c.sets.length) fun s => if s = s0 then 1 else 0 :=
            Finset.sum_le_sum (fun s _ => hin s)
        _ ≤ 1 := by
            rw [Finset.sum_ite_eq']
            split <;> simp
    have hle : (Finset.sum (Finset.range c.sets.length) fun s =>
        Finset.sum (Finset.range (set_lines c s).length) fun k =>
          if (line_at c' s k).valid = 1 then 1 else 0) ≤
        Finset.sum (Finset.range c.sets.length) fun s =>
          Finset.sum (Finset.range (set_lines c s).length) fun k =>
            ((if (line_at c s k).valid = 1 then 1 else 0) +
              (if s = s0 ∧ k = k0 then 1 else 0)) := by
      apply Finset.sum_le_sum
      intro s _
      apply Finset.sum_le_sum
      intro k _
      rcases h s k with h1 | ⟨h1, h2, _⟩
      · rw [h1]
        exact Nat.le_add_right _ _
      · have hc : s = s0 ∧ k = k0 := ⟨h1, h2⟩
        rw [if_pos hc]
        split <;> split <;> omega
    simp only [Finset.sum_add_distrib] at hle
    unfold valid_count
    omega

/-- C18 (no invalidation). After a call of `handle_mem_trace` every line that
was valid is still valid, and the number of valid lines of the cache has not
decreased and has grown by at most 1. -/
theorem handle_mem_trace_no_invalidation (st : state) (oper : Char) (addr : Nat) :
    (∀ s k, (line_at st.c s k).valid = 1 →
      (line_at (handle_mem_trace st oper addr).c s k).valid = 1) ∧
    valid_count st.c ≤ valid_count (handle_mem_trace st oper addr).c ∧
    valid_count (handle_mem_trace st oper addr).c ≤ valid_count st.c + 1 := by
  obtain ⟨k0, hk⟩ := handle_mem_trace_fields st oper addr
  have hv : ∀ s' k,
      (line_at (handle_mem_trace st oper addr).c s' k).valid = (line_at st.c s' k).valid ∨
      (s' = set_idx_of st.c addr ∧ k = k0 ∧
        (line_at (handle_mem_trace st oper addr).c s' k).valid = 1) := by
    intro s' k
    rcases hk s' k with h | ⟨h1, h2, h3, _⟩
    · exact Or.inl h.1
    · exact Or.inr ⟨h1, h2, h3⟩
  refine ⟨?_, valid_count_le st.c _ (same_shape_handle_mem_trace st oper addr) _ k0 hv⟩
  intro s k hval
  rcases hv s k with h | ⟨_, _, h⟩
  · rw [h, hval]
  · exact h
/-- A read past the `E` lines of a set yields the default line of the model. -/
theorem line_at_of_ge (c : cache) (s k : Nat) (hok : set_ok c s) (hk : c.E.toNat ≤ k) :
    line_at c s k = default := by
  rw [line_at_eq, List.getD_eq_getElem?_getD,
    List.getElem?_eq_none (by rw [hok.2]; exact hk)]
  rfl

/-- The lines of the cache after `update_cache(c, tag, set_idx, line_idx)`. -/
theorem line_at_update_cache (c : cache) (tag s j : Nat) (hok : set_ok c s)
    (hj : j < c.E.toNat) (s' k : Nat) :
    line_at (update_cache c tag s j) s' k =
      if s' = s ∧ k < c.E.toNat then
        (if k = j then { valid := 1, tag := tag % 2 ^ 32, LRU_age := 0 }
         else { line_at c s k with LRU_age := wrap_int ((line_at c s k).LRU_age + 1) })
      else line_at c s' k := by
  have hsh1 := same_shape_store_line c s j { line_at c s j with tag := tag % 2 ^ 32 }
  have hok1 := (same_shape_set_ok hsh1 s).2 hok
  have hj1 : j < (store_line c s j { line_at c s j with tag := tag % 2 ^ 32 }).E.toNat := hj
  have hsh2 := same_shape_update_LRU
    (store_line c s j { line_at c s j with tag := tag % 2 ^ 32 }) s j
  have hlen : j < (set_lines c s).length := by rw [hok.2]; exact hj
  unfold update_cache
  simp only []
  rw [line_at_store_line, hsh2.2.2.2.2.1, hsh2.2.2.2.2.2 s, hsh1.2.2.2.2.1, hsh1.2.2.2.2.2 s,
    line_at_update_LRU _ s j hok1 hj1, line_at_update_LRU _ s j hok1 hj1]
  simp only [store_line_E, line_at_store_line]
  by_cases h1 : s' = s
  · subst h1
    by_cases h2 : k = j
    · subst h2
      simp [hok.1, hlen, hj]
    · by_cases h3 : k < c.E.toNat
      · simp [h2, h3]
      · simp [h2, h3]
  · simp [h1]

theorem age_inv_mono {n m : Nat} (h : n ≤ m) {c : cache} {s' : Nat} (hinv : age_inv n c s') :
    age_inv m c s' := by
  obtain ⟨h1, h2, h3, h4⟩ := hinv
  refine ⟨fun k => ⟨(h1 k).1, ?_⟩, h2, h3, h4⟩
  have := (h1 k).2
  have hc : (n : Int) ≤ m := by exact_mod_cast h
  omega

/-- The invariant depends on the lines of the set only. -/
theorem age_inv_congr {n : Nat} {c c' : cache} {s' : Nat}
    (h : ∀ k, line_at c' s' k = line_at c s' k) (hinv : age_inv n c s') :
    age_inv n c' s' := by
  unfold age_inv at hinv ⊢
  simp only [h]
  exact hinv

theorem age_inv_init_cache (s E b : Int) (s' : Nat) : age_inv 0 (init_cache s E b) s' := by
  simp [age_inv, line_at_init_cache]
/-- The invariant survives an access that ages the lines of the set and makes
line `p` the valid line of age 0, as a hit and `update_cache` do. -/
theorem age_inv_touch (n : Nat) (c c' : cache) (s p : Nat) (hok : set_ok c s)
    (hinv : age_inv n c s)
    (h0 : (line_at c s 0).valid = 1 ∨ p = 0)
    (hline : ∀ k, k < c.E.toNat → k ≠ p →
      line_at c' s k = { line_at c s k with LRU_age := (line_at c s k).LRU_age + 1 })
    (hp : (line_at c' s p).valid = 1 ∧ (line_at c' s p).LRU_age = 0)
    (hrest : ∀ k, c.E.toNat ≤ k → line_at c' s k = line_at c s k) :
    age_inv (n + 1) c' s := by
  obtain ⟨i1, i2, i3, i4⟩ := hinv
  have hout : ∀ k, c.E.toNat ≤ k → (line_at c' s k).valid = 0 := by
    intro k hk
    rw [hrest k hk, line_at_of_ge c s k hok hk]
    rfl
  have hin : ∀ k, (line_at c' s k).valid = 1 → k < c.E.toNat := by
    intro k hv
    by_contra hk
    have := hout k (by omega)
    omega
  refine ⟨?_, ?_, ?_, ?_⟩
  · intro k
    have := i1 k
    by_cases hk : k < c.E.toNat
    · by_cases hkp : k = p
      · rw [hkp, hp.2]
        exact ⟨le_refl _, by push_cast; omega⟩
      · rw [hline k hk hkp]
        dsimp only
        push_cast
        omega
    · rw [hrest k (by omega)]
      push_cast
      omega
  · intro k
    by_cases hk : k < c.E.toNat
    · by_cases hkp : k = p
      · rw [hkp]; exact Or.inr hp.1
      · rw [hline k hk hkp]
        exact i2 k
    · rw [hrest k (by omega)]
      exact i2 k
  · intro k l hvk hvl hkl
    have hk := hin k hvk
    have hl := hin l hvl
    by_cases hkp : k = p
    · have hlp : l ≠ p := fun e => hkl (hkp.trans e.symm)
      rw [hkp, hp.2, hline l hl hlp]
      dsimp only
      have := (i1 l).1
      omega
    · by_cases hlp : l = p
      · rw [hlp, hp.2, hline k hk hkp]
        dsimp only
        have := (i1 k).1
        omega
      · rw [hline k hk hkp] at hvk ⊢
        rw [hline l hl hlp] at hvl ⊢
        dsimp only at hvk hvl ⊢
        have := i3 k l hvk hvl hkl
        omega
  · right
    by_cases hp0 : p = 0
    · rw [← hp0]; exact hp.1
    · have hv0 : (line_at c s 0).valid = 1 := by
        rcases h0 with h | h
        · exact h
        · exact absurd h hp0
      have hE : 0 < c.E.toNat := by
        by_contra hE
        have := line_at_of_ge c s 0 hok (by omega)
        rw [this] at hv0
        exact absurd hv0 (by decide)
      rw [hline 0 hE (fun e => hp0 e.symm)]
      exact hv0

/-- The invariant survives `evict_line` called after `find_empty_line` has
returned 0. -/
theorem age_inv_evict_line (n : Nat) (c : cache) (tag s : Nat) (hok : set_ok c s)
    (hE : 1 ≤ c.E) (hinv : age_inv n c s) (hfe : find_empty_line c s = 0) :
    age_inv n (evict_line c tag s) s := by
  obtain ⟨i1, i2, i3, i4⟩ := hinv
  have hv := evict_line_idx_lt c s hE
  have hspec := evict_line_idx_spec c s hE (fun k _ => (i1 k).1)
  have hline : ∀ k, line_at (evict_line c tag s) s k =
      if k = evict_line_idx c s then
        { line_at c s (evict_line_idx c s) with valid := 1, tag := tag % 2 ^ 32 }
      else line_at c s k := by
    intro k
    unfold evict_line
    rw [line_at_store_line]
    have hlen : evict_line_idx c s < (set_lines c s).length := by rw [hok.2]; exact hv
    by_cases hk : k = evict_line_idx c s
    · simp [hk, hok.1, hlen]
    · simp [hk]
  have hage : ∀ k, (line_at (evict_line c tag s) s k).LRU_age = (line_at c s k).LRU_age := by
    intro k
    rw [hline k]
    split
    · rename_i hk
      rw [hk]
    · rfl
  rcases i4 with hpr | hv0
  · -- the set is untouched: the victim is line 0
    have hz : evict_line_idx c s = 0 := by
      by_contra hne
      have := hspec.2.2 0 (by omega)
      rw [(hpr 0).2, (hpr (evict_line_idx c s)).2] at this
      omega
    have hval : ∀ k, (line_at (evict_line c tag s) s k).valid = 1 → k = 0 := by
      intro k hk
      by_contra hne
      rw [hline k, hz, if_neg hne, (hpr k).1] at hk
      omega
    refine ⟨fun k => by rw [hage k]; exact i1 k, ?_, ?_, ?_⟩
    · intro k
      rw [hline k]
      split
      · exact Or.inr rfl
      · exact i2 k
    · intro k l hk hl hkl
      exact absurd ((hval k hk).trans (hval l hl).symm) hkl
    · right
      rw [hline 0, hz, if_pos rfl]
  · -- line 0 is valid: no line has `valid == 0`, the victim was valid already
    have hfull : ∀ k, k < c.E.toNat → (line_at c s k).valid = 1 := by
      intro k hk
      unfold find_empty_line at hfe
      rcases find_empty_line_loop_cases c s c.E.toNat 0 with ⟨_, _, h3, _⟩ | ⟨_, h2⟩
      · rw [hfe, hv0] at h3
        omega
      · have := h2 k (Nat.zero_le k) (by omega)
        rcases i2 k with h | h
        · exact absurd h this
        · exact h
    have hval : ∀ k, (line_at (evict_line c tag s) s k).valid = (line_at c s k).valid := by
      intro k
      rw [hline k]
      split
      · rename_i hk
        rw [hk, hfull _ hv]
      · rfl
    refine ⟨fun k => by rw [hage k]; exact i1 k, fun k => by rw [hval k]; exact i2 k, ?_, ?_⟩
    · intro k l hk hl hkl
      rw [hval k] at hk
      rw [hval l] at hl
      rw [hage k, hage l]
      exact i3 k l hk hl hkl
    · right
      rw [hval 0]; exact hv0
/-- A write to a set the cache does not have changes nothing in the model. -/
theorem store_line_of_ge (c : cache) (s i : Nat) (l : cache_line) (h : c.sets.length ≤ s) :
    store_line c s i l = c := by
  unfold store_line
  rw [List.set_eq_of_length_le h]

theorem update_LRU_loop_of_ge (s n i : Nat) (c : cache) (h : c.sets.length ≤ s) :
    update_LRU_loop s n i c = c := by
  induction n generalizing i with
  | zero => rfl
  | succ n ih =>
    unfold update_LRU_loop
    rw [store_line_of_ge c s i _ h]
    exact ih (i + 1)

/-- A call of `handle_mem_trace` whose set index is no set of the cache leaves
the cache of the model as it is. -/
theorem handle_mem_trace_c_of_ge (st : state) (oper : Char) (addr : Nat)
    (h : st.c.sets.length ≤ set_idx_of st.c addr) :
    (handle_mem_trace st oper addr).c = st.c := by
  have hu : ∀ i, update_LRU st.c (set_idx_of st.c addr) i = st.c := by
    intro i
    unfold update_LRU
    dsimp only
    rw [update_LRU_loop_of_ge _ _ _ _ h, store_line_of_ge _ _ _ _ h]
  rcases handle_mem_trace_cases st oper addr with ⟨i, _, _, e⟩ | ⟨_, _, e⟩ | ⟨_, _, e⟩
  · rw [e]
    exact hu i
  · rw [e]
    dsimp only
    unfold evict_line
    exact store_line_of_ge _ _ _ _ h
  · rw [e]
    dsimp only
    unfold update_cache
    dsimp only
    rw [store_line_of_ge st.c _ _ _ h, hu, store_line_of_ge st.c _ _ _ h]

/-- One call of `handle_mem_trace` keeps the invariant of every set, as long as
the ages stay below `2 ^ 31`. -/
theorem age_inv_handle_mem_trace (n : Nat) (st : state) (oper : Char) (addr : Nat)
    (hn : n + 1 < 2 ^ 31)
    (hE : 1 ≤ st.c.E) (hok : set_ok st.c (set_idx_of st.c addr))
    (hinv : ∀ s', age_inv n st.c s') :
    ∀ s', age_inv (n + 1) (handle_mem_trace st oper addr).c s' := by
  have hnz : ((n : Int) + 1) < 2 ^ 31 := by exact_mod_cast hn
  have hw : ∀ k, wrap_int ((line_at st.c (set_idx_of st.c addr) k).LRU_age + 1) =
      (line_at st.c (set_idx_of st.c addr) k).LRU_age + 1 := by
    intro k
    have := (hinv (set_idx_of st.c addr)).1 k
    exact wrap_int_of_range _ (by omega) (by omega)
  intro s'
  by_cases hs : s' = set_idx_of st.c addr
  · subst hs
    rcases handle_mem_trace_cases st oper addr with ⟨i, hi, hm, h⟩ | ⟨_, hfe, h⟩ | ⟨_, hne, h⟩
    · rw [h]
      apply age_inv_touch n st.c _ _ i hok (hinv _)
      · rcases (hinv (set_idx_of st.c addr)).2.2.2 with hpr | hv0
        · have := (hpr i).1
          rw [hm.1] at this
          exact absurd this (by decide)
        · exact Or.inl hv0
      · intro k hk hkp
        dsimp only
        rw [line_at_update_LRU st.c _ i hok hi]
        simp [hk, hkp, hw k]
      · dsimp only
        rw [line_at_update_LRU st.c _ i hok hi]
        simp [hi, hm.1]
      · intro k hk
        dsimp only
        rw [line_at_update_LRU st.c _ i hok hi]
        have : ¬ k < st.c.E.toNat := by omega
        simp [this]
    · rw [h]
      exact age_inv_mono (Nat.le_succ n) (age_inv_evict_line n st.c _ _ hok hE (hinv _) hfe)
    · have hj : find_empty_line st.c (set_idx_of st.c addr) < st.c.E.toNat :=
        find_empty_line_lt st.c _ hE
      have hv0 : (line_at st.c (set_idx_of st.c addr) 0).valid = 1 := by
        have hcases := find_empty_line_loop_cases st.c (set_idx_of st.c addr) st.c.E.toNat 0
        unfold find_empty_line at hne
        rcases hcases with ⟨_, _, _, h4⟩ | ⟨h1, _⟩
        · have := h4 0 (Nat.le_refl 0) (by omega)
          rcases (hinv (set_idx_of st.c addr)).2.1 0 with h0 | h0
          · exact absurd h0 this
          · exact h0
        · exact absurd h1 hne
      rw [h]
      apply age_inv_touch n st.c _ _ (find_empty_line st.c (set_idx_of st.c addr)) hok (hinv _)
        (Or.inl hv0)
      · intro k hk hkp
        dsimp only
        rw [line_at_update_cache st.c _ _ _ hok hj]
        simp [hk, hkp, hw k]
      · dsimp only
        rw [line_at_update_cache st.c _ _ _ hok hj]
        simp [hj]
      · intro k hk
        dsimp only
        rw [line_at_update_cache st.c _ _ _ hok hj]
        have : ¬ k < st.c.E.toNat := by omega
        simp [this]
  · apply age_inv_mono (Nat.le_succ n)
    apply age_inv_congr _ (hinv s')
    intro k
    rcases handle_mem_trace_cases st oper addr with ⟨i, hi, _, h⟩ | ⟨_, _, h⟩ | ⟨_, _, h⟩
    · rw [h]
      dsimp only
      rw [line_at_update_LRU st.c _ i hok hi]
      simp [hs]
    · rw [h]
      dsimp only
      unfold evict_line
      rw [line_at_store_line]
      simp [hs]
    · rw [h]
      dsimp only
      rw [line_at_update_cache st.c _ _ _ hok (find_empty_line_lt st.c _ hE)]
      simp [hs]

/-- A replay of fewer than `2 ^ 31` calls keeps the invariant of every set, with
one more unit of age allowed for each record. A record whose set index is no
set of the cache changes no line of the model. -/
theorem age_inv_replay (s E b : Int) (hE : 1 ≤ E)
    (trace : List (Char × Nat)) (st : state) (n : Nat) (hn : n + trace.length < 2 ^ 31)
    (hsh : same_shape (init_cache s E b) st.c) (hinv : ∀ s', age_inv n st.c s') :
    ∀ s', age_inv (n + trace.length) (replay st trace).c s' := by
  induction trace generalizing st n with
  | nil => simpa [replay] using hinv
  | cons r rs ih =>
    have hlen : n + (r :: rs).length = n + 1 + rs.length := by
      simp only [List.length_cons]; omega
    rw [hlen] at hn ⊢
    have hE' : 1 ≤ st.c.E := by rw [hsh.1]; exact hE
    have hstep : ∀ s', age_inv (n + 1) (handle_mem_trace st r.1 r.2).c s' := by
      by_cases hin : set_idx_of st.c r.2 < st.c.sets.length
      · have hok : set_ok st.c (set_idx_of st.c r.2) :=
          (same_shape_set_ok hsh _).2
            (set_ok_init_cache s E b _ (by rw [← hsh.2.2.2.2.1]; exact hin))
        exact age_inv_handle_mem_trace n st r.1 r.2 (by omega) hE' hok hinv
      · intro s'
        rw [handle_mem_trace_c_of_ge st r.1 r.2 (by omega)]
        exact age_inv_mono (Nat.le_succ n) (hinv s')
    exact ih (handle_mem_trace st r.1 r.2) (n + 1) hn
      (same_shape_trans hsh (same_shape_handle_mem_trace st r.1 r.2)) hstep

/-- C17 (age-distinctness invariant). In every state reached from
`init_cache(s, E, b)` (`s + b < 64`, `E ≥ 1`) by fewer than `2 ^ 31` calls of
`handle_mem_trace`, every valid line has an age that is non-negative and in the
range of `int`, and two different valid lines of one set have different ages. -/
theorem replay_ages_distinct (s b : Nat) (E : Int) (trace : List (Char × Nat))
    (_hsb : s + b < 64) (hE : 1 ≤ E) (hn : trace.length < 2 ^ 31) :
    ∀ set k, (line_at (replay (init_state s E b) trace).c set k).valid = 1 →
      0 ≤ (line_at (replay (init_state s E b) trace).c set k).LRU_age ∧
      (line_at (replay (init_state s E b) trace).c set k).LRU_age < 2 ^ 31 ∧
      ∀ l, (line_at (replay (init_state s E b) trace).c set l).valid = 1 → k ≠ l →
        (line_at (replay (init_state s E b) trace).c set k).LRU_age ≠
          (line_at (replay (init_state s E b) trace).c set l).LRU_age := by
  intro set k hv
  have hinv := age_inv_replay s E b hE trace (init_state s E b) 0 (by omega)
    (same_shape_refl _) (fun s' => age_inv_init_cache s E b s') set
  obtain ⟨i1, _, i3, _⟩ := hinv
  have h1 := i1 k
  have hn' : (trace.length : Int) < 2 ^ 31 := by exact_mod_cast hn
  refine ⟨h1.1, ?_, fun l hl hkl => i3 k l hv hl hkl⟩
  have := h1.2
  push_cast at this
  omega

/-- The age invariant after the trace 1, 2, 1, 3 on the two-line cache: the
two valid lines of set 0 have different ages. -/
theorem replay_ages_distinct_witness :
    (line_at (replay (init_state (0 : Nat) 2 (0 : Nat))
        [('L', 1), ('L', 2), ('L', 1), ('L', 3)]).c 0 0).LRU_age ≠
      (line_at (replay (init_state (0 : Nat) 2 (0 : Nat))
        [('L', 1), ('L', 2), ('L', 1), ('L', 3)]).c 0 1).LRU_age :=
  (replay_ages_distinct 0 0 2 [('L', 1), ('L', 2), ('L', 1), ('L', 3)] (by decide)
    (by decide) (by decide) 0 0 (by decide)).2.2 1 (by decide) (by decide)

end Csim
